import Mathlib

/-!
Verification of the copilot-router credential pool and dialect translation
engine against its natural-language specification.

The definitions below are shallow embeddings of the corresponding functions
of the repository:

* `TokenEntry`, `getActiveTokenEntries`, `getRandomTokenEntry`,
  `refreshCopilotTokenForEntry`, `refreshAllCopilotTokens`, `addToken`,
  `reportError` embed `src/lib/token-manager.ts` (class `TokenManager`).
  The in-memory `Map<number, TokenEntry>` is embedded as a `List TokenEntry`
  in insertion order with unique ids; network calls
  (`getGitHubUserForToken`, `getCopilotTokenForGithubToken`) are oracles
  passed as explicit arguments; JavaScript `Date` values are absolute
  timestamps in milliseconds (`Int`); JavaScript truthiness of a
  `string | null` field is `Option String` with the empty string falsy.

* The Anthropic streaming translator embeds
  `TranslateChunkToAnthropicEvents` of
  `src/CopilotRouter/Models/OpenAITypes.cs`, with its mutable
  `AnthropicStreamState` made explicit state, and the C# dictionary
  `state.ToolCalls` embedded as a key-unique association list.

* `translateOpenAIToGemini` / `mapStopReason` embed the finish-reason
  tables of `src/routes/gemini/translation.ts` and
  `src/CopilotRouter/Models/OpenAITypes.cs`.

* The count-tokens handlers embed `src/routes/anthropic/routes.ts` and
  `src/routes/gemini/routes.ts`, on top of an embedding of
  `translateToOpenAI` from the Anthropic translation module.

* `authComplete` embeds the single-flight guard of the
  `/auth/complete` handler in `src/routes/auth/routes.ts`
  (lines 86-108), with the outcome of `tokenManager.addToken` an oracle.
-/

namespace CopilotRouter

/-! ## Credential pool: data model (src/lib/token-manager.ts, interface TokenEntry) -/

/-- One backend credential and its derived runtime state
(`TokenEntry` of src/lib/token-manager.ts).  Dates are milliseconds. -/
structure TokenEntry where
  id : Nat
  githubToken : String
  username : Option String
  copilotToken : Option String
  copilotTokenExpiresAt : Option Int
  accountType : String
  isActive : Bool
  lastUsed : Option Int
  requestCount : Nat
  errorCount : Nat
  deriving Repr, DecidableEq

/-- JavaScript truthiness of a `string | null` value: null and the empty
string are falsy. -/
def strTruthy : Option String → Bool
  | none => false
  | some s => s ≠ ""

/-- `getActiveTokenEntries`: `this.getAllTokenEntries().filter(t => t.isActive && t.copilotToken)`. -/
def getActiveTokenEntries (tokens : List TokenEntry) : List TokenEntry :=
  tokens.filter (fun t => t.isActive && strTruthy t.copilotToken)

/-- `getRandomTokenEntry`: picks `activeTokens[Math.floor(Math.random() * activeTokens.length)]`,
sets its `lastUsed` to now and increments its `requestCount`.  The random
draw is embedded as the argument `rand` reduced modulo the number of
eligible entries (`Math.floor(Math.random() * n)` ranges over exactly the
indices `0 .. n-1`); `now` is the current time in milliseconds. -/
def getRandomTokenEntry (tokens : List TokenEntry) (rand : Nat) (now : Int) :
    Option TokenEntry :=
  let activeTokens := getActiveTokenEntries tokens
  if activeTokens.length = 0 then none
  else
    (activeTokens.get? (rand % activeTokens.length)).map
      (fun t => { t with lastUsed := some now, requestCount := t.requestCount + 1 })

/-- Outcome of the upstream token exchange
(`getCopilotTokenForGithubToken`), an external network call: either a
fresh token with its `expires_at` (seconds), or a failure (thrown error). -/
inductive ExchangeResult where
  | success (token : String) (expiresAt : Int)
  | failure
  deriving Repr, DecidableEq

/-- Result of `refreshCopilotTokenForEntry`: the updated entry, whether the
call threw (it rethrows the exchange error), and whether it persisted a
deactivation (`deactivateToken`). -/
structure RefreshResult where
  entry : TokenEntry
  threw : Bool
  persistedDeactivation : Bool
  deriving Repr, DecidableEq

/-- `refreshCopilotTokenForEntry` (src/lib/token-manager.ts, lines 190-223):
on success stores the new token, converts `expires_at` seconds to a
millisecond date, resets the error count; on failure increments the error
count, clears the stored Copilot token and expiry, deactivates and
persists once the error count reaches 3, and rethrows. -/
def refreshCopilotTokenForEntry (entry : TokenEntry) (result : ExchangeResult) :
    RefreshResult :=
  match result with
  | .success token expiresAt =>
      ⟨{ entry with
          copilotToken := some token
          copilotTokenExpiresAt := some (expiresAt * 1000)
          errorCount := 0 }, false, false⟩
  | .failure =>
      let e := { entry with
          errorCount := entry.errorCount + 1
          copilotToken := none
          copilotTokenExpiresAt := none }
      if e.errorCount ≥ 3 then
        ⟨{ e with isActive := false }, true, true⟩
      else
        ⟨e, true, false⟩

/-- `refreshAllCopilotTokens` (src/lib/token-manager.ts, lines 228-240):
iterates over all entries, skips inactive ones (`if (!entry.isActive) continue`),
refreshes each remaining entry inside a try/catch whose catch swallows the
error.  `results` gives the exchange outcome per entry id.  Returns the
updated entries and the list of ids for which a refresh was attempted. -/
def refreshAllCopilotTokens (tokens : List TokenEntry)
    (results : Nat → ExchangeResult) : List TokenEntry × List Nat :=
  match tokens with
  | [] => ([], [])
  | e :: rest =>
      let p := refreshAllCopilotTokens rest results
      if e.isActive then
        ((refreshCopilotTokenForEntry e (results e.id)).entry :: p.1, e.id :: p.2)
      else
        (e :: p.1, p.2)

/-- `addToken` (src/lib/token-manager.ts, lines 127-185).  The identity
lookup `getGitHubUserForToken` is the oracle argument `username` (the
resolved login); `saveToken` returns the fresh database id `newId`; the
immediate Copilot token exchange outcome is `exch`.  If an entry for the
resolved username exists it is updated in place (new raw token, reactivated,
error count reset) and its Copilot token refreshed; otherwise a new entry
is stored and refreshed.  Both refresh calls are wrapped in try/catch, so an
exchange failure never fails the add. -/
def addToken (tokens : List TokenEntry) (githubToken : String)
    (accountType : String) (username : String) (newId : Nat)
    (exch : ExchangeResult) : List TokenEntry × TokenEntry :=
  match tokens.find? (fun t => t.username = some username) with
  | some existingEntry =>
      let updated := { existingEntry with
          githubToken := githubToken
          isActive := true
          errorCount := 0 }
      let updated := (refreshCopilotTokenForEntry updated exch).entry
      (tokens.map (fun t => if t.id = existingEntry.id then updated else t), updated)
  | none =>
      let entry : TokenEntry :=
        { id := newId
          githubToken := githubToken
          username := some username
          copilotToken := none
          copilotTokenExpiresAt := none
          accountType := accountType
          isActive := true
          lastUsed := none
          requestCount := 0
          errorCount := 0 }
      let entry := (refreshCopilotTokenForEntry entry exch).entry
      (tokens ++ [entry], entry)

/-- `reportError` (src/lib/token-manager.ts, lines 269-274): looks the entry
up by id and increments its error counter. -/
def reportError (tokens : List TokenEntry) (id : Nat) : List TokenEntry :=
  tokens.map (fun t => if t.id = id then { t with errorCount := t.errorCount + 1 } else t)

/-! ## Canonical streaming chunks (OpenAITypes.cs, streaming types) -/

/-- `StreamFunctionCall` of OpenAITypes.cs (the `func` field embeds the C#
property `Function`). -/
structure StreamFunctionCall where
  name : Option String
  arguments : Option String
  deriving Repr, DecidableEq

/-- `StreamToolCall` of OpenAITypes.cs. -/
structure StreamToolCall where
  index : Nat
  id : Option String
  func : Option StreamFunctionCall
  deriving Repr, DecidableEq

/-- `Delta` of OpenAITypes.cs (the `role` property is ignored by the
translator and omitted). -/
structure ChunkDelta where
  content : Option String
  toolCalls : Option (List StreamToolCall)
  deriving Repr, DecidableEq

/-- `StreamChoice` of OpenAITypes.cs. -/
structure StreamChoice where
  delta : Option ChunkDelta
  finishReason : Option String
  deriving Repr, DecidableEq

/-- `Usage` of OpenAITypes.cs; `cachedTokens` embeds
`PromptTokensDetails?.CachedTokens`. -/
structure UsageInfo where
  promptTokens : Int
  completionTokens : Int
  totalTokens : Int
  cachedTokens : Option Int
  deriving Repr, DecidableEq

/-- `ChatCompletionChunk` of OpenAITypes.cs. -/
structure ChatCompletionChunk where
  id : String
  model : String
  choices : List StreamChoice
  usage : Option UsageInfo
  deriving Repr, DecidableEq

/-! ## Anthropic stream events (OpenAITypes.cs, AnthropicStreamEvent) -/

/-- `AnthropicUsage` of OpenAITypes.cs. -/
structure AnthropicUsageE where
  inputTokens : Int
  outputTokens : Int
  cacheReadInputTokens : Option Int
  deriving Repr, DecidableEq

/-- The content block payload carried by a `content_block_start` event. -/
inductive ABlockKind where
  | text
  | toolUse (id name : String)
  deriving Repr, DecidableEq

/-- The delta payload carried by a `content_block_delta` event. -/
inductive ADeltaKind where
  | textDelta (text : String)
  | inputJsonDelta (jsonText : String)
  deriving Repr, DecidableEq

/-- One Anthropic stream event, discriminated by its `type` string in the
C# code (`message_start`, `content_block_start`, `content_block_delta`,
`content_block_stop`, `message_delta`, `message_stop`). -/
inductive AnthropicStreamEvent where
  | messageStart (id model : String) (usage : AnthropicUsageE)
  | contentBlockStart (index : Nat) (block : ABlockKind)
  | contentBlockDelta (index : Nat) (delta : ADeltaKind)
  | contentBlockStop (index : Nat)
  | messageDelta (stopReason : Option String) (usage : AnthropicUsageE)
  | messageStop
  deriving Repr, DecidableEq

/-- `ToolCallInfo` of OpenAITypes.cs. -/
structure ToolCallInfo where
  id : String
  name : String
  anthropicBlockIndex : Nat
  deriving Repr, DecidableEq

/-- `AnthropicStreamState` of OpenAITypes.cs; the
`Dictionary<int, ToolCallInfo>` is embedded as a key-unique association
list. -/
structure AnthropicStreamState where
  messageStartSent : Bool
  contentBlockIndex : Nat
  contentBlockOpen : Bool
  toolCalls : List (Nat × ToolCallInfo)
  deriving Repr, DecidableEq

/-- Dictionary read: `state.ToolCalls.TryGetValue(i, out info)`. -/
def lookupTC (m : List (Nat × ToolCallInfo)) (i : Nat) : Option ToolCallInfo :=
  (m.find? (fun p => p.1 = i)).map Prod.snd

/-- Dictionary write: `state.ToolCalls[i] = info` (replaces any existing
binding for the key). -/
def insertTC (m : List (Nat × ToolCallInfo)) (i : Nat) (info : ToolCallInfo) :
    List (Nat × ToolCallInfo) :=
  (i, info) :: m.filter (fun p => p.1 ≠ i)

/-- `chunk.Usage?.PromptTokensDetails?.CachedTokens ?? 0`. -/
def cachedTokensOf (u : Option UsageInfo) : Int :=
  match u with
  | some ui => ui.cachedTokens.getD 0
  | none => 0

/-- The `AnthropicUsage` object built by the translator:
`InputTokens = (chunk.Usage?.PromptTokens ?? 0) - cachedTokens`,
`CacheReadInputTokens = cachedTokens > 0 ? cachedTokens : null`. -/
def mkAnthropicUsage (u : Option UsageInfo) (outTokens : Int) : AnthropicUsageE :=
  let cached := cachedTokensOf u
  { inputTokens := (match u with | some ui => ui.promptTokens | none => 0) - cached
    outputTokens := outTokens
    cacheReadInputTokens := if cached > 0 then some cached else none }

/-- `MapStopReason` of OpenAITypes.cs (lines 941-951): the switch over the
canonical finish reason, with default null. -/
def mapStopReason (r : Option String) : Option String :=
  if r = some "stop" then some "end_turn"
  else if r = some "length" then some "max_tokens"
  else if r = some "tool_calls" then some "tool_use"
  else if r = some "content_filter" then some "end_turn"
  else none

/-- `IsToolBlockOpen` of OpenAITypes.cs (lines 935-939). -/
def isToolBlockOpen (s : AnthropicStreamState) : Bool :=
  s.contentBlockOpen &&
    s.toolCalls.any (fun p => p.2.anthropicBlockIndex = s.contentBlockIndex)

/-- The message-start section of `TranslateChunkToAnthropicEvents`
(lines 779-804). -/
def msgStartPhase (chunk : ChatCompletionChunk) (s : AnthropicStreamState) :
    List AnthropicStreamEvent × AnthropicStreamState :=
  if s.messageStartSent then ([], s)
  else
    ([.messageStart chunk.id chunk.model (mkAnthropicUsage chunk.usage 0)],
     { s with messageStartSent := true })

/-- The text-content section of `TranslateChunkToAnthropicEvents`
(lines 806-837): a non-empty text delta first closes an open tool block,
then opens a text block if none is open, then appends a text delta. -/
def textPhase (content : Option String) (s : AnthropicStreamState) :
    List AnthropicStreamEvent × AnthropicStreamState :=
  match content with
  | none => ([], s)
  | some txt =>
      if txt = "" then ([], s)
      else
        let p1 :=
          if isToolBlockOpen s then
            ([AnthropicStreamEvent.contentBlockStop s.contentBlockIndex],
             { s with contentBlockIndex := s.contentBlockIndex + 1,
                      contentBlockOpen := false })
          else ([], s)
        let p2 :=
          if !p1.2.contentBlockOpen then
            ([AnthropicStreamEvent.contentBlockStart p1.2.contentBlockIndex .text],
             { p1.2 with contentBlockOpen := true })
          else ([], p1.2)
        (p1.1 ++ p2.1 ++ [.contentBlockDelta p2.2.contentBlockIndex (.textDelta txt)], p2.2)

/-- One iteration of the tool-call loop of
`TranslateChunkToAnthropicEvents` (lines 842-896): a delta carrying a
non-empty id and function name closes any open block and opens a new
tool-use block at the next free index, registering the provider tool index
in the state; a delta carrying a non-empty argument fragment appends an
`input_json_delta` at the registered block index. -/
def processToolCall (s : AnthropicStreamState) (tc : StreamToolCall) :
    List AnthropicStreamEvent × AnthropicStreamState :=
  let tname := tc.func.bind (fun f => f.name)
  let p1 :=
    if strTruthy tc.id && strTruthy tname then
      let pC :=
        if s.contentBlockOpen then
          ([AnthropicStreamEvent.contentBlockStop s.contentBlockIndex],
           { s with contentBlockIndex := s.contentBlockIndex + 1,
                    contentBlockOpen := false })
        else ([], s)
      let blockIndex := pC.2.contentBlockIndex
      let info : ToolCallInfo := ⟨tc.id.getD "", tname.getD "", blockIndex⟩
      (pC.1 ++ [AnthropicStreamEvent.contentBlockStart blockIndex (.toolUse info.id info.name)],
       { pC.2 with toolCalls := insertTC pC.2.toolCalls tc.index info,
                   contentBlockOpen := true })
    else ([], s)
  let args := tc.func.bind (fun f => f.arguments)
  let evs2 :=
    if strTruthy args then
      match lookupTC p1.2.toolCalls tc.index with
      | some tcInfo =>
          [AnthropicStreamEvent.contentBlockDelta tcInfo.anthropicBlockIndex
            (.inputJsonDelta (args.getD ""))]
      | none => []
    else []
  (p1.1 ++ evs2, p1.2)

/-- The `foreach` over `delta.ToolCalls`. -/
def processToolCalls (tcs : List StreamToolCall) (s : AnthropicStreamState) :
    List AnthropicStreamEvent × AnthropicStreamState :=
  match tcs with
  | [] => ([], s)
  | tc :: rest =>
      let p := processToolCall s tc
      let q := processToolCalls rest p.2
      (p.1 ++ q.1, q.2)

/-- The tool-calls section of `TranslateChunkToAnthropicEvents`
(lines 839-897): runs only when `delta?.ToolCalls != null`. -/
def toolPhase (toolCalls : Option (List StreamToolCall)) (s : AnthropicStreamState) :
    List AnthropicStreamEvent × AnthropicStreamState :=
  match toolCalls with
  | none => ([], s)
  | some tcs => processToolCalls tcs s

/-- The finish section of `TranslateChunkToAnthropicEvents`
(lines 899-930): on a non-empty finish reason, closes any open block, then
emits one `message_delta` with the mapped stop reason and final usage and
one `message_stop`. -/
def finishPhase (finishReason : Option String) (usage : Option UsageInfo)
    (s : AnthropicStreamState) :
    List AnthropicStreamEvent × AnthropicStreamState :=
  if strTruthy finishReason then
    let p1 :=
      if s.contentBlockOpen then
        ([AnthropicStreamEvent.contentBlockStop s.contentBlockIndex],
         { s with contentBlockOpen := false })
      else ([], s)
    (p1.1 ++
      [.messageDelta (mapStopReason finishReason)
        (mkAnthropicUsage usage (match usage with | some ui => ui.completionTokens | none => 0)),
       .messageStop], p1.2)
  else ([], s)

/-- `TranslateChunkToAnthropicEvents` of OpenAITypes.cs (lines 767-933):
chunks with no choices produce no events; otherwise the first choice is
processed through the four sections in order. -/
def translateChunkToAnthropicEvents (chunk : ChatCompletionChunk)
    (s : AnthropicStreamState) :
    List AnthropicStreamEvent × AnthropicStreamState :=
  match chunk.choices with
  | [] => ([], s)
  | choice :: _ =>
      let p1 := msgStartPhase chunk s
      let p2 := textPhase (choice.delta.bind (fun d => d.content)) p1.2
      let p3 := toolPhase (choice.delta.bind (fun d => d.toolCalls)) p2.2
      let p4 := finishPhase choice.finishReason chunk.usage p3.2
      (p1.1 ++ p2.1 ++ p3.1 ++ p4.1, p4.2)

/-- The fresh `AnthropicStreamState` created per streaming connection. -/
def initialStreamState : AnthropicStreamState :=
  { messageStartSent := false
    contentBlockIndex := 0
    contentBlockOpen := false
    toolCalls := [] }

/-- Feeding a finite chunk sequence through one stream state, concatenating
the emitted events (the per-chunk loop of the `/v1/messages` streaming
handler). -/
def processChunks (chunks : List ChatCompletionChunk) (s : AnthropicStreamState) :
    List AnthropicStreamEvent × AnthropicStreamState :=
  match chunks with
  | [] => ([], s)
  | c :: rest =>
      let p := translateChunkToAnthropicEvents c s
      let q := processChunks rest p.2
      (p.1 ++ q.1, q.2)

/-! ## Canonical non-streaming responses (OpenAITypes.cs, response types) -/

/-- `FunctionCall` of OpenAITypes.cs (a completed tool call); `arguments`
is the raw JSON text the backend produced. -/
structure FunctionCallE where
  name : String
  arguments : String
  deriving Repr, DecidableEq

/-- `ToolCall` of OpenAITypes.cs (the constant `type = "function"` field is
elided; `func` embeds the property `Function`). -/
structure ToolCallE where
  id : String
  func : FunctionCallE
  deriving Repr, DecidableEq

/-- `ResponseMessage` of OpenAITypes.cs (the constant role is elided). -/
structure ResponseMessageE where
  content : Option String
  toolCalls : Option (List ToolCallE)
  deriving Repr, DecidableEq

/-- `Choice` of OpenAITypes.cs / a choice of the TS
`ChatCompletionResponse`. -/
structure ChoiceE where
  index : Nat
  message : ResponseMessageE
  finishReason : Option String
  deriving Repr, DecidableEq

/-- `ChatCompletionResponse` of OpenAITypes.cs. -/
structure ChatCompletionResponseE where
  id : String
  model : String
  choices : List ChoiceE
  usage : Option UsageInfo
  deriving Repr, DecidableEq

/-- A content block of the non-streaming Anthropic response.  In the C#
code a tool-use block carries
`Input = JsonSerializer.Deserialize<Dictionary<string, object>>(tc.Function.Arguments)`;
the embedding keeps the raw argument text `argumentsRaw`, of which `Input`
is the JSON parse. -/
inductive ARespBlock where
  | text (text : String)
  | toolUse (id name argumentsRaw : String)
  deriving Repr, DecidableEq

/-- The `stopReason` accumulation of `TranslateToAnthropic`:
`stopReason ??= choice.FinishReason`, then
`if (choice.ToolCalls != null && choice.FinishReason == "tool_calls") stopReason = "tool_calls"`. -/
def respStopReason (choices : List ChoiceE) (acc : Option String) : Option String :=
  match choices with
  | [] => acc
  | c :: rest =>
      let acc1 := match acc with | none => c.finishReason | some r => some r
      let acc2 :=
        if c.message.toolCalls.isSome && (c.finishReason == some "tool_calls")
        then some "tool_calls" else acc1
      respStopReason rest acc2

/-- `AnthropicResponse` as built by `TranslateToAnthropic` (constant
`type`, `role`, `stop_sequence` fields elided). -/
structure AnthropicResponseE where
  id : String
  model : String
  content : List ARespBlock
  stopReason : Option String
  usage : AnthropicUsageE
  deriving Repr, DecidableEq

/-- `TranslateToAnthropic` of OpenAITypes.cs (lines 707-762): text blocks
of all choices with non-empty content, followed by all tool-use blocks;
stop reason accumulated over choices and mapped through `MapStopReason`;
usage subtracts cached prompt tokens. -/
def translateToAnthropicCS (resp : ChatCompletionResponseE) : AnthropicResponseE :=
  let allTextBlocks := resp.choices.filterMap (fun c =>
    match c.message.content with
    | some t => if t = "" then none else some (ARespBlock.text t)
    | none => none)
  let allToolUseBlocks := resp.choices.flatMap (fun c =>
    (c.message.toolCalls.getD []).map (fun tc =>
      ARespBlock.toolUse tc.id tc.func.name tc.func.arguments))
  { id := resp.id
    model := resp.model
    content := allTextBlocks ++ allToolUseBlocks
    stopReason := mapStopReason (respStopReason resp.choices none)
    usage := mkAnthropicUsage resp.usage
      (match resp.usage with | some u => u.completionTokens | none => 0) }

/-! ## Gemini response translation (src/routes/gemini/translation.ts) -/

/-- A Gemini response part as built by `translateOpenAIToGemini`; a
function-call part carries `args = JSON.parse(toolCall.function.arguments)`,
embedded as the raw text `argsRaw`. -/
inductive GeminiRespPart where
  | text (text : String)
  | functionCall (id : String) (name : String) (argsRaw : String)
  deriving Repr, DecidableEq

/-- One candidate of the Gemini response (`role: "model"` elided). -/
structure GeminiCandidateE where
  parts : List GeminiRespPart
  finishReason : String
  index : Nat
  deriving Repr, DecidableEq

/-- `usageMetadata` of the Gemini response. -/
structure GeminiUsageE where
  promptTokenCount : Int
  candidatesTokenCount : Int
  totalTokenCount : Int
  deriving Repr, DecidableEq

/-- The Gemini response envelope. -/
structure GeminiResponseE where
  candidates : List GeminiCandidateE
  usageMetadata : Option GeminiUsageE
  deriving Repr, DecidableEq

/-- The `finishReasonMap` lookup of `translateOpenAIToGemini`
(src/routes/gemini/translation.ts, lines 174-185):
`finishReasonMap[choice.finish_reason] || "OTHER"`. -/
def geminiFinishReason (r : Option String) : String :=
  if r = some "stop" then "STOP"
  else if r = some "length" then "MAX_TOKENS"
  else if r = some "tool_calls" then "STOP"
  else if r = some "content_filter" then "SAFETY"
  else "OTHER"

/-- `translateOpenAIToGemini` (src/routes/gemini/translation.ts,
lines 143-198). -/
def translateOpenAIToGemini (resp : ChatCompletionResponseE) : GeminiResponseE :=
  { candidates := resp.choices.map (fun choice =>
      let textParts :=
        match choice.message.content with
        | some t => if t = "" then [] else [GeminiRespPart.text t]
        | none => []
      let callParts := (choice.message.toolCalls.getD []).map (fun tc =>
        GeminiRespPart.functionCall tc.id tc.func.name tc.func.arguments)
      { parts := textParts ++ callParts
        finishReason := geminiFinishReason choice.finishReason
        index := choice.index })
    usageMetadata := resp.usage.map (fun u =>
      { promptTokenCount := u.promptTokens
        candidatesTokenCount := u.completionTokens
        totalTokenCount := u.totalTokens }) }

/-! ## Anthropic request translation (src/routes/gemini/translation.ts,
Anthropic section `translateToOpenAI` and helpers)

The Anthropic wire types are embedded from their use in the translation
functions: a content block is text, thinking, image, tool_use (with its
`input` object kept as raw JSON text) or tool_result (whose `content` is a
string or a block list). -/

/-- One Anthropic content block. -/
inductive ABlock where
  | text (text : String)
  | thinking (thinking : String)
  | image (mediaType data : String)
  | toolUse (id name inputRaw : String)
  | toolResult (toolUseId : String) (content : String ⊕ List ABlock)
  deriving Repr

/-- A content part of the canonical (OpenAI-shaped) message. -/
inductive ContentPartE where
  | text (text : String)
  | imageUrl (url : String)
  deriving Repr, DecidableEq

/-- Canonical message content: a plain string or an ordered parts array. -/
inductive MessageContentE where
  | str (s : String)
  | parts (l : List ContentPartE)
  deriving Repr, DecidableEq

/-- A canonical (OpenAI-shaped) request message as built by the Anthropic
request translator. -/
structure MessageE where
  role : String
  content : Option MessageContentE
  toolCallId : Option String
  toolCalls : Option (List ToolCallE)
  deriving Repr, DecidableEq

/-- `mapContent` (src/routes/gemini/translation.ts, Anthropic section,
lines 444-483): string content passes through; block lists with no image
collapse to the text and thinking block texts joined by a blank line;
block lists with an image become an ordered parts array of text, thinking
and data-URL image parts (other block kinds are dropped). -/
def mapContent : String ⊕ List ABlock → MessageContentE
  | .inl s => .str s
  | .inr blocks =>
      if blocks.any (fun b => match b with | .image _ _ => true | _ => false) then
        .parts (blocks.filterMap (fun b =>
          match b with
          | .text t => some (.text t)
          | .thinking t => some (.text t)
          | .image mt d => some (.imageUrl ("data:" ++ mt ++ ";base64," ++ d))
          | _ => none))
      else
        .str (String.intercalate "\n\n" (blocks.filterMap (fun b =>
          match b with
          | .text t => some t
          | .thinking t => some t
          | _ => none)))

/-- An Anthropic request message (role user or assistant, content a string
or a block list). -/
inductive AnthropicMessageE where
  | user (content : String ⊕ List ABlock)
  | assistant (content : String ⊕ List ABlock)
  deriving Repr

/-- `handleSystemPrompt` (lines 344-355): a system string becomes one
system message; a text-block list joins its texts with a blank line.
Block-list elements are embedded by their `text` field. -/
def handleSystemPrompt (system : Option (String ⊕ List String)) : List MessageE :=
  match system with
  | none => []
  | some (.inl s) => [{ role := "system", content := some (.str s), toolCallId := none, toolCalls := none }]
  | some (.inr blocks) =>
      [{ role := "system", content := some (.str (String.intercalate "\n\n" blocks)),
         toolCallId := none, toolCalls := none }]

/-- `handleUserMessage` (lines 357-390): tool-result blocks become leading
`tool` messages; remaining blocks become one user message. -/
def handleUserMessage (content : String ⊕ List ABlock) : List MessageE :=
  match content with
  | .inl s => [{ role := "user", content := some (mapContent (.inl s)), toolCallId := none, toolCalls := none }]
  | .inr blocks =>
      let toolResultBlocks := blocks.filterMap (fun b =>
        match b with
        | .toolResult tid c => some (tid, c)
        | _ => none)
      let otherBlocks := blocks.filter (fun b =>
        match b with
        | .toolResult _ _ => false
        | _ => true)
      toolResultBlocks.map (fun p =>
        { role := "tool", content := some (mapContent p.2), toolCallId := some p.1, toolCalls := none })
      ++ (if otherBlocks.length > 0 then
            [{ role := "user", content := some (mapContent (.inr otherBlocks)),
               toolCallId := none, toolCalls := none }]
          else [])

/-- `handleAssistantMessage` (lines 392-442): with tool-use blocks present,
one assistant message whose text is the text blocks followed by the
thinking blocks joined by blank lines (`allTextContent || null` maps the
empty join to null) and whose tool_calls serialize each tool-use block;
otherwise plain content mapping. -/
def handleAssistantMessage (content : String ⊕ List ABlock) : List MessageE :=
  match content with
  | .inl s => [{ role := "assistant", content := some (mapContent (.inl s)), toolCallId := none, toolCalls := none }]
  | .inr blocks =>
      let toolUseBlocks := blocks.filterMap (fun b =>
        match b with
        | .toolUse i n inp => some (ToolCallE.mk i ⟨n, inp⟩)
        | _ => none)
      let textTexts := blocks.filterMap (fun b =>
        match b with
        | .text t => some t
        | _ => none)
      let thinkingTexts := blocks.filterMap (fun b =>
        match b with
        | .thinking t => some t
        | _ => none)
      let allTextContent := String.intercalate "\n\n" (textTexts ++ thinkingTexts)
      if toolUseBlocks.length > 0 then
        [{ role := "assistant"
           content := if allTextContent = "" then none else some (.str allTextContent)
           toolCallId := none
           toolCalls := some toolUseBlocks }]
      else
        [{ role := "assistant", content := some (mapContent (.inr blocks)),
           toolCallId := none, toolCalls := none }]

/-- `translateAnthropicMessagesToOpenAI` (lines 331-342). -/
def translateAnthropicMessagesToOpenAI (messages : List AnthropicMessageE)
    (system : Option (String ⊕ List String)) : List MessageE :=
  handleSystemPrompt system ++ messages.flatMap (fun m =>
    match m with
    | .user c => handleUserMessage c
    | .assistant c => handleAssistantMessage c)

/-! ## Count-tokens endpoints (src/routes/anthropic/routes.ts lines 150-174,
src/routes/gemini/routes.ts lines 134-155) -/

/-- The character count the Anthropic count-tokens handler takes over the
translated messages: string content counts its length, array content
counts the text parts. -/
def messageChars (m : MessageE) : Nat :=
  match m.content with
  | some (.str s) => s.length
  | some (.parts l) => (l.map (fun p =>
      match p with
      | .text t => t.length
      | .imageUrl _ => 0)).sum
  | none => 0

/-- The `/v1/messages/count_tokens` handler: translates the Anthropic
payload to the canonical shape, sums the character lengths of the message
contents and returns `Math.ceil(totalChars / 4)`. -/
def countTokensAnthropic (messages : List AnthropicMessageE)
    (system : Option (String ⊕ List String)) : Nat :=
  let totalChars := ((translateAnthropicMessagesToOpenAI messages system).map messageChars).sum
  (totalChars + 3) / 4

/-- A part of a Gemini request content (only the `text` field is read by
the count-tokens handler; other fields are elided). -/
structure GeminiReqPart where
  text : Option String
  deriving Repr, DecidableEq

/-- A Gemini request content: an optional parts list (`content.parts || []`). -/
structure GeminiContentE where
  parts : Option (List GeminiReqPart)
  deriving Repr, DecidableEq

/-- Character count of one Gemini content: `if (part.text) totalChars += part.text.length`. -/
def geminiContentChars (c : GeminiContentE) : Nat :=
  ((c.parts.getD []).map (fun p =>
    match p.text with
    | some t => t.length
    | none => 0)).sum

/-- The Gemini `:countTokens` handler (src/routes/gemini/routes.ts,
lines 134-155): sums the part text lengths of `contents` and of
`systemInstruction` and returns `Math.ceil(totalChars / 4)`. -/
def countTokensGemini (contents : Option (List GeminiContentE))
    (systemInstruction : Option GeminiContentE) : Nat :=
  let fromContents := ((contents.getD []).map geminiContentChars).sum
  let fromSystem := match systemInstruction with
    | some c => geminiContentChars c
    | none => 0
  (fromContents + fromSystem + 3) / 4

/-! ## Device-code completion single-flight guard
(src/routes/auth/routes.ts, lines 86-108) -/

/-- Caller-visible outcome of the guarded section of the `/auth/complete`
handler. -/
inductive CompleteStatus where
  | processing
  | success
  | failure
  deriving Repr, DecidableEq

/-- Result of the guarded section: the response status, the
`processingDeviceCodes` set afterwards, and how many `addToken` calls were
made. -/
structure AuthCompleteResult where
  status : CompleteStatus
  processingAfter : List String
  addAttempts : Nat
  deriving Repr, DecidableEq

/-- The single-flight guard of the `/auth/complete` handler: a device code
already in `processingDeviceCodes` returns `processing` without a second
add; otherwise the code is added to the set, `addToken` runs once (its
outcome is the oracle `addSucceeds`), and the `finally` block removes the
code on both the success and the failure path. -/
def authComplete (processing : List String) (deviceCode : String)
    (addSucceeds : Bool) : AuthCompleteResult :=
  if deviceCode ∈ processing then
    { status := .processing, processingAfter := processing, addAttempts := 0 }
  else
    let during := deviceCode :: processing
    { status := if addSucceeds then .success else .failure
      processingAfter := during.erase deviceCode
      addAttempts := 1 }

/-! ## Specification-side definitions

The following definitions formalize wording of the specification itself
(not the code); they are used to compare the code against the spec. -/

/-- Eligibility as worded by the spec: `active == true` AND upstream token
present AND not expired at time `now` (an expiry timestamp in the past
makes the entry ineligible). -/
def specEligible (now : Int) (t : TokenEntry) : Bool :=
  t.isActive && strTruthy t.copilotToken &&
    (match t.copilotTokenExpiresAt with
     | some e => !(e < now)
     | none => false)

/-- Characters of textual content of one Anthropic block, as worded by the
spec (text and reasoning blocks carry text; images and tool blocks do
not). -/
def blockTextChars : ABlock → Nat
  | .text t => t.length
  | .thinking t => t.length
  | _ => 0

/-- Characters of textual content of one Anthropic request message. -/
def msgTextChars : AnthropicMessageE → Nat
  | .user (.inl s) => s.length
  | .user (.inr bs) => (bs.map blockTextChars).sum
  | .assistant (.inl s) => s.length
  | .assistant (.inr bs) => (bs.map blockTextChars).sum

/-- The spec-side total: sum of character lengths of all textual content of
the request, including any system instruction. -/
def specAnthropicTextChars (messages : List AnthropicMessageE)
    (system : Option (String ⊕ List String)) : Nat :=
  (match system with
   | none => 0
   | some (.inl s) => s.length
   | some (.inr bs) => (bs.map String.length).sum)
  + (messages.map msgTextChars).sum

/-- The spec-side total for a Gemini request: sum of the character lengths
of all part texts, including the system instruction. -/
def specGeminiTextChars (contents : Option (List GeminiContentE))
    (systemInstruction : Option GeminiContentE) : Nat :=
  ((contents.getD []).map geminiContentChars).sum +
    (match systemInstruction with
     | some c => geminiContentChars c
     | none => 0)

/-- Whether an Anthropic message carries plain string content. -/
def isStringContent : AnthropicMessageE → Bool
  | .user (.inl _) => true
  | .assistant (.inl _) => true
  | _ => false

/-- Whether the system instruction is absent or a plain string. -/
def systemStringOnly : Option (String ⊕ List String) → Bool
  | some (.inr _) => false
  | _ => true

/-! ## Event-sequence analysis

`scanBlocks open evs` walks an event sequence keeping track of whether a
content block is open.  It returns `none` as soon as the sequence opens a
block while one is open, closes a block while none is open, or emits
`message_stop` while a block is open; otherwise it returns the open flag
after the sequence.  `scanBlocks false evs = some b` therefore certifies
that in `evs` at most one content block is ever open, every
`content_block_stop` closes a previously opened block, and at every
`message_stop` all previously opened blocks have been closed. -/
def scanBlocks : Bool → List AnthropicStreamEvent → Option Bool
  | b, [] => some b
  | b, .contentBlockStart _ _ :: rest => if b then none else scanBlocks true rest
  | b, .contentBlockStop _ :: rest => if b then scanBlocks false rest else none
  | b, .messageStop :: rest => if b then none else scanBlocks false rest
  | b, .messageStart _ _ _ :: rest => scanBlocks b rest
  | b, .contentBlockDelta _ _ :: rest => scanBlocks b rest
  | b, .messageDelta _ _ :: rest => scanBlocks b rest

/-- `scanMS sent evs` walks an event sequence keeping track of whether
`message_start` has been emitted.  It returns `none` if any event precedes
the `message_start` or a second `message_start` appears; so
`scanMS false evs = some b` certifies that `message_start` is emitted at
most once and before every other event. -/
def scanMS : Bool → List AnthropicStreamEvent → Option Bool
  | b, [] => some b
  | b, .messageStart _ _ _ :: rest => if b then none else scanMS true rest
  | b, .contentBlockStart _ _ :: rest => if b then scanMS b rest else none
  | b, .contentBlockDelta _ _ :: rest => if b then scanMS b rest else none
  | b, .contentBlockStop _ :: rest => if b then scanMS b rest else none
  | b, .messageDelta _ _ :: rest => if b then scanMS b rest else none
  | b, .messageStop :: rest => if b then scanMS b rest else none

/-- Whether an event is the message-start envelope event. -/
def isMsgStart : AnthropicStreamEvent → Bool
  | .messageStart _ _ _ => true
  | _ => false

/-- The tool-call deltas a chunk feeds to the tool-call loop (first choice
only, as in the C# code). -/
def toolDeltasOfChunk (c : ChatCompletionChunk) : List StreamToolCall :=
  match c.choices with
  | [] => []
  | choice :: _ => (choice.delta.bind (fun d => d.toolCalls)).getD []

/-- All tool-call deltas of a chunk sequence, in arrival order. -/
def toolDeltasOf (cs : List ChatCompletionChunk) : List StreamToolCall :=
  cs.flatMap toolDeltasOfChunk

/-- A delta that introduces a tool call: non-empty id and function name. -/
def isIntroD (tc : StreamToolCall) : Bool :=
  strTruthy tc.id && strTruthy (tc.func.bind (fun f => f.name))

/-- A delta that carries an argument fragment. -/
def isFragD (tc : StreamToolCall) : Bool :=
  strTruthy (tc.func.bind (fun f => f.arguments))

/-- The argument fragment text of a delta. -/
def argOf (tc : StreamToolCall) : String :=
  (tc.func.bind (fun f => f.arguments)).getD ""

/-- The argument fragments for provider tool index `i`, in arrival order. -/
def fragsFor (i : Nat) (tcs : List StreamToolCall) : List String :=
  (tcs.filter (fun tc => tc.index == i && isFragD tc)).map argOf

/-- The texts of the `input_json_delta` events emitted at block index
`idx`, in emission order. -/
def jsonDeltasAt (idx : Nat) (evs : List AnthropicStreamEvent) : List String :=
  evs.filterMap (fun e =>
    match e with
    | .contentBlockDelta j (.inputJsonDelta s) => if j = idx then some s else none
    | _ => none)

/-- Whether a chunk carries no finish reason (first choice, as read by the
translator). -/
def noFinishChunk (c : ChatCompletionChunk) : Bool :=
  match c.choices with
  | [] => true
  | choice :: _ => !(strTruthy choice.finishReason)

/-- State invariant of the streaming translator maintained while no finish
reason has been processed: registered provider indices are unique,
registered block indices are at most the current index and equal to it
only while a block is open, and registered block indices are pairwise
distinct. -/
def StateInv (s : AnthropicStreamState) : Prop :=
  (s.toolCalls.map Prod.fst).Nodup ∧
  (∀ p ∈ s.toolCalls, p.2.anthropicBlockIndex ≤ s.contentBlockIndex ∧
      (p.2.anthropicBlockIndex = s.contentBlockIndex → s.contentBlockOpen = true)) ∧
  (s.toolCalls.map (fun p => p.2.anthropicBlockIndex)).Nodup

/-- Some registered tool call occupies block index `b`. -/
def BlockUsed (m : List (Nat × ToolCallInfo)) (b : Nat) : Prop :=
  ∃ p ∈ m, p.2.anthropicBlockIndex = b

/-- Well-formedness of a delta sequence against a registration map: no
delta re-introduces an already-registered index, and no two introductions
share an index. -/
def NoReintro (m : List (Nat × ToolCallInfo)) (ds : List StreamToolCall) : Prop :=
  (∀ tc ∈ ds, isIntroD tc = true → lookupTC m tc.index = none) ∧
  ds.Pairwise (fun a b => isIntroD a = true → isIntroD b = true → a.index ≠ b.index)

/-! # Theorems -/

/-- C10: `reportError` only increments the error counter of the entry with
the given id: the pool keeps its size, every entry keeps its position, and
every field of every entry other than the matched entry error counter is
unchanged — the active flag and the stored Copilot token in particular,
regardless of how large the counter gets. -/
theorem reportError_only_increments_counter (tokens : List TokenEntry) (id : Nat) :
    (reportError tokens id).length = tokens.length ∧
    ∀ k t, tokens.get? k = some t →
      ∃ t', (reportError tokens id).get? k = some t' ∧
        t'.id = t.id ∧ t'.githubToken = t.githubToken ∧ t'.username = t.username ∧
        t'.copilotToken = t.copilotToken ∧
        t'.copilotTokenExpiresAt = t.copilotTokenExpiresAt ∧
        t'.accountType = t.accountType ∧ t'.isActive = t.isActive ∧
        t'.lastUsed = t.lastUsed ∧ t'.requestCount = t.requestCount ∧
        t'.errorCount = (if t.id = id then t.errorCount + 1 else t.errorCount) := by
  refine ⟨by simp [reportError], ?_⟩
  intro k t ht
  refine ⟨if t.id = id then { t with errorCount := t.errorCount + 1 } else t, ?_, ?_⟩
  · rw [List.get?_eq_getElem?] at ht
    simp [reportError, List.get?_eq_getElem?, List.getElem?_map, ht]
  · by_cases h : t.id = id <;> simp [h]

/-- C10 witness: the frame property evaluated on a concrete one-entry pool
whose counter is already at the deactivation threshold. -/
theorem reportError_only_increments_counter_witness :
    (reportError [(⟨1, "gh", some "alice", some "tok", some 5, "individual",
        true, none, 7, 3⟩ : TokenEntry)] 1).length = 1 ∧
    ∃ t', (reportError [(⟨1, "gh", some "alice", some "tok", some 5, "individual",
        true, none, 7, 3⟩ : TokenEntry)] 1).get? 0 = some t' ∧
      t'.id = 1 ∧ t'.githubToken = "gh" ∧ t'.username = some "alice" ∧
      t'.copilotToken = some "tok" ∧ t'.copilotTokenExpiresAt = some 5 ∧
      t'.accountType = "individual" ∧ t'.isActive = true ∧
      t'.lastUsed = none ∧ t'.requestCount = 7 ∧
      t'.errorCount = (if (1 : Nat) = 1 then 3 + 1 else 3) := by
  have h := reportError_only_increments_counter
    [(⟨1, "gh", some "alice", some "tok", some 5, "individual", true, none, 7, 3⟩ : TokenEntry)] 1
  exact ⟨h.1, h.2 0 _ rfl⟩

/-- C9: the single-flight guard of `/auth/complete`: a device code already
in flight yields a `processing` status, no second `addToken` call and an
unchanged in-flight set; a device code not in flight triggers exactly one
add and is removed from the in-flight set on both the success and the
failure path. -/
theorem authComplete_single_flight (processing : List String) (deviceCode : String)
    (addSucceeds : Bool) :
    (deviceCode ∈ processing →
      authComplete processing deviceCode addSucceeds =
        ⟨.processing, processing, 0⟩) ∧
    (deviceCode ∉ processing →
      (authComplete processing deviceCode addSucceeds).addAttempts = 1 ∧
      (authComplete processing deviceCode addSucceeds).processingAfter = processing ∧
      deviceCode ∉ (authComplete processing deviceCode addSucceeds).processingAfter) := by
  constructor
  · intro h
    simp [authComplete, h]
  · intro h
    simp [authComplete, h]

/-- C9 witness: the guard evaluated with an in-flight device code, and with
a fresh device code whose add fails. -/
theorem authComplete_single_flight_witness :
    (authComplete ["dc"] "dc" true = ⟨.processing, ["dc"], 0⟩) ∧
    ((authComplete [] "dc" false).addAttempts = 1 ∧
      (authComplete [] "dc" false).processingAfter = [] ∧
      "dc" ∉ (authComplete [] "dc" false).processingAfter) := by
  exact ⟨(authComplete_single_flight ["dc"] "dc" true).1 (by simp),
         (authComplete_single_flight [] "dc" false).2 (by simp)⟩

/-- C6 (amended): the background refresh pass attempts a refresh for every
currently active entry — for any exchange outcomes, so one entry's
exchange failure never prevents the attempts for the remaining entries —
and never raises (the per-entry try/catch swallows failures; the pass is a
total function returning the full updated pool). -/
theorem refreshAll_attempts_every_active (tokens : List TokenEntry)
    (results : Nat → ExchangeResult) :
    (refreshAllCopilotTokens tokens results).2
      = (tokens.filter (fun t => t.isActive)).map (fun t => t.id) ∧
    (refreshAllCopilotTokens tokens results).1.length = tokens.length := by
  induction tokens with
  | nil => simp [refreshAllCopilotTokens]
  | cons e rest ih =>
      by_cases h : e.isActive <;>
        simp [refreshAllCopilotTokens, h, List.filter_cons, ih.1, ih.2]

/-- C6 counterexample: the claim says the pass calls refresh for every
known entry, but an inactive entry is skipped (`if (!entry.isActive)
continue`): a pool holding one known (inactive) entry gets zero refresh
attempts. -/
theorem refreshAll_skips_inactive_entry :
    (refreshAllCopilotTokens
        [(⟨2, "gh", some "bob", none, none, "individual", false, none, 0, 0⟩ : TokenEntry)]
        (fun _ => .failure)).2 = [] ∧
    ([(⟨2, "gh", some "bob", none, none, "individual", false, none, 0, 0⟩ : TokenEntry)].map
        (fun t => t.id)) = [2] := by
  exact ⟨rfl, rfl⟩

/-- C1 (amended): `getRandomTokenEntry` returns only entries whose active
flag is set and whose stored Copilot token is present (non-null,
non-empty), and returns `None` exactly when no entry passes that check.
The expiry timestamp is not consulted by the selection. -/
theorem getRandomTokenEntry_amended (tokens : List TokenEntry) (rand : Nat) (now : Int) :
    (∀ e, getRandomTokenEntry tokens rand now = some e →
        e.isActive = true ∧ strTruthy e.copilotToken = true) ∧
    (getRandomTokenEntry tokens rand now = none ↔
        ∀ t ∈ tokens, ¬(t.isActive = true ∧ strTruthy t.copilotToken = true)) := by
  have hfilter : ∀ t, t ∈ getActiveTokenEntries tokens →
      t ∈ tokens ∧ (t.isActive && strTruthy t.copilotToken) = true := by
    intro t ht
    exact List.mem_filter.mp ht
  constructor
  · intro e he
    unfold getRandomTokenEntry at he
    by_cases h0 : (getActiveTokenEntries tokens).length = 0
    · simp [h0] at he
    · simp only [h0, if_false] at he
      rw [Option.map_eq_some'] at he
      obtain ⟨t, ht, rfl⟩ := he
      have hmem := List.get?_mem ht
      have := (hfilter t hmem).2
      rw [Bool.and_eq_true] at this
      exact ⟨this.1, this.2⟩
  · unfold getRandomTokenEntry
    by_cases h0 : (getActiveTokenEntries tokens).length = 0
    · simp only [h0, if_true, true_iff]
      have hnil : getActiveTokenEntries tokens = [] := List.length_eq_zero.mp h0
      intro t ht hcontra
      have : t ∈ getActiveTokenEntries tokens := by
        unfold getActiveTokenEntries
        exact List.mem_filter.mpr ⟨ht, by simp [hcontra.1, hcontra.2]⟩
      rw [hnil] at this
      exact absurd this (List.not_mem_nil t)
    · simp only [h0, if_false]
      have hlt : rand % (getActiveTokenEntries tokens).length
          < (getActiveTokenEntries tokens).length :=
        Nat.mod_lt _ (Nat.pos_of_ne_zero h0)
      have hsome := List.get?_eq_get hlt
      constructor
      · intro hmap
        rw [hsome] at hmap
        simp at hmap
      · intro hall
        have hmem := List.get_mem (getActiveTokenEntries tokens)
          (rand % (getActiveTokenEntries tokens).length) hlt
        have hp := (hfilter _ hmem).2
        rw [Bool.and_eq_true] at hp
        exact absurd ⟨hp.1, hp.2⟩ (hall _ (hfilter _ hmem).1)

/-- C1 witness for the amended claim: a pool with one active, token-bearing
entry yields that entry, and a pool with one token-less entry yields
`None`. -/
theorem getRandomTokenEntry_amended_witness :
    ((getRandomTokenEntry
        [(⟨1, "gh", some "alice", some "tok", some 99, "individual",
            true, none, 0, 0⟩ : TokenEntry)] 0 50).elim True
        (fun e => e.isActive = true ∧ strTruthy e.copilotToken = true)) ∧
    (getRandomTokenEntry
        [(⟨1, "gh", some "alice", none, none, "individual",
            true, none, 0, 0⟩ : TokenEntry)] 0 50 = none) := by
  constructor
  · exact (getRandomTokenEntry_amended
      [(⟨1, "gh", some "alice", some "tok", some 99, "individual",
          true, none, 0, 0⟩ : TokenEntry)] 0 50).1 _ rfl
  · exact (getRandomTokenEntry_amended
      [(⟨1, "gh", some "alice", none, none, "individual",
          true, none, 0, 0⟩ : TokenEntry)] 0 50).2.mpr (by decide)

/-- C1 counterexample: a pool whose only entry is active with a stored
token whose expiry timestamp (0) is in the past (now = 1000) has no
eligible entry in the sense of the claim, yet `getRandomTokenEntry`
returns it instead of `None` — the code never checks expiry. -/
theorem getRandomTokenEntry_returns_expired :
    (∀ t ∈ [(⟨1, "gh", some "alice", some "tok", some 0, "individual",
        true, none, 0, 0⟩ : TokenEntry)], specEligible 1000 t = false) ∧
    getRandomTokenEntry
        [(⟨1, "gh", some "alice", some "tok", some 0, "individual",
            true, none, 0, 0⟩ : TokenEntry)] 0 1000 ≠ none := by
  exact ⟨by decide, by decide⟩

/-- C8: the canonical finish reason maps through the explicit tables:
`stop` to `end_turn` (Dialect-A) and `STOP` (Dialect-G), `length` to
`max_tokens` / `MAX_TOKENS`, `tool_calls` to `tool_use` / `STOP`,
`content_filter` to `end_turn` / `SAFETY`, and any other value to the
fixed dialect default (null for Dialect-A, `OTHER` for Dialect-G); the
Gemini translator applies the table to every choice, preserving its
index. -/
theorem finish_reason_mapping :
    (mapStopReason (some "stop") = some "end_turn" ∧
      geminiFinishReason (some "stop") = "STOP") ∧
    (mapStopReason (some "length") = some "max_tokens" ∧
      geminiFinishReason (some "length") = "MAX_TOKENS") ∧
    (mapStopReason (some "tool_calls") = some "tool_use" ∧
      geminiFinishReason (some "tool_calls") = "STOP") ∧
    (mapStopReason (some "content_filter") = some "end_turn" ∧
      geminiFinishReason (some "content_filter") = "SAFETY") ∧
    (∀ r : Option String,
        r ≠ some "stop" → r ≠ some "length" → r ≠ some "tool_calls" →
        r ≠ some "content_filter" →
        mapStopReason r = none ∧ geminiFinishReason r = "OTHER") ∧
    (∀ (resp : ChatCompletionResponseE) (k : Nat) (choice : ChoiceE),
        resp.choices.get? k = some choice →
        ∃ cand, (translateOpenAIToGemini resp).candidates.get? k = some cand ∧
          cand.finishReason = geminiFinishReason choice.finishReason ∧
          cand.index = choice.index) := by
  refine ⟨by decide, by decide, by decide, by decide, ?_, ?_⟩
  · intro r h1 h2 h3 h4
    exact ⟨by simp [mapStopReason, h1, h2, h3, h4], by simp [geminiFinishReason, h1, h2, h3, h4]⟩
  · intro resp k choice h
    rw [List.get?_eq_getElem?] at h
    refine ⟨{ parts := (match choice.message.content with
                        | some t => if t = "" then [] else [GeminiRespPart.text t]
                        | none => []) ++
                       (choice.message.toolCalls.getD []).map (fun tc =>
                         GeminiRespPart.functionCall tc.id tc.func.name tc.func.arguments)
              finishReason := geminiFinishReason choice.finishReason
              index := choice.index }, ?_, rfl, rfl⟩
    rw [List.get?_eq_getElem?]
    simp only [translateOpenAIToGemini, List.getElem?_map, h, Option.map_some']

/-- Helper: refreshing never touches the identity fields of an entry. -/
theorem refresh_preserves_fields (e : TokenEntry) (r : ExchangeResult) :
    (refreshCopilotTokenForEntry e r).entry.id = e.id ∧
    (refreshCopilotTokenForEntry e r).entry.githubToken = e.githubToken ∧
    (refreshCopilotTokenForEntry e r).entry.username = e.username ∧
    (refreshCopilotTokenForEntry e r).entry.accountType = e.accountType := by
  cases r with
  | success tok exp => simp [refreshCopilotTokenForEntry]
  | failure =>
      simp only [refreshCopilotTokenForEntry]
      split <;> simp

/-- Helper: an inactive entry stays inactive under any refresh outcome. -/
theorem refresh_keeps_inactive (e : TokenEntry) (r : ExchangeResult)
    (h : e.isActive = false) :
    (refreshCopilotTokenForEntry e r).entry.isActive = false := by
  cases r with
  | success tok exp => simpa [refreshCopilotTokenForEntry] using h
  | failure =>
      simp only [refreshCopilotTokenForEntry]
      split <;> simp [h]

/-- Helper: an active entry whose error count was just reset survives one
refresh, whatever the outcome. -/
theorem refresh_keeps_fresh_active (e : TokenEntry) (r : ExchangeResult)
    (hA : e.isActive = true) (hE : e.errorCount = 0) :
    (refreshCopilotTokenForEntry e r).entry.isActive = true := by
  cases r with
  | success tok exp => simpa [refreshCopilotTokenForEntry] using hA
  | failure => simp [refreshCopilotTokenForEntry, hE, hA]

/-- Helper: `find?` over an appended list. -/
theorem list_find?_append {α : Type} (p : α → Bool) (l1 l2 : List α) :
    (l1 ++ l2).find? p = ((l1.find? p).elim (l2.find? p) some) := by
  induction l1 with
  | nil => simp
  | cons a rest ih =>
      by_cases h : p a <;> simp [List.find?_cons, h, ih]

/-- Helper: mapping a function that fixes every member is the identity. -/
theorem list_map_id_of {α : Type} (l : List α) (f : α → α)
    (h : ∀ x ∈ l, f x = x) : l.map f = l := by
  induction l with
  | nil => rfl
  | cons a rest ih =>
      simp only [List.map_cons, h a (by simp)]
      rw [ih (fun x hx => h x (by simp [hx]))]

/-- C2: on a successful exchange, refresh overwrites the stored token and
expiry and resets the error count; on failure it increments the error
count and clears the token and expiry (so the entry is immediately
ineligible), deactivating and persisting the deactivation exactly once the
count reaches the threshold 3; three consecutive failures starting from a
fresh active entry leave it inactive — and it then stays inactive under
any further refresh outcomes, until `addToken` stores a new raw credential
for the identity, which always reactivates the returned entry. -/
theorem refresh_entry_behavior :
    (∀ (entry : TokenEntry) (tok : String) (exp : Int),
        (refreshCopilotTokenForEntry entry (.success tok exp)).entry.copilotToken = some tok ∧
        (refreshCopilotTokenForEntry entry (.success tok exp)).entry.copilotTokenExpiresAt
          = some (exp * 1000) ∧
        (refreshCopilotTokenForEntry entry (.success tok exp)).entry.errorCount = 0) ∧
    (∀ entry : TokenEntry,
        (refreshCopilotTokenForEntry entry .failure).entry.errorCount = entry.errorCount + 1 ∧
        (refreshCopilotTokenForEntry entry .failure).entry.copilotToken = none ∧
        strTruthy (refreshCopilotTokenForEntry entry .failure).entry.copilotToken = false ∧
        (entry.errorCount + 1 < 3 →
          (refreshCopilotTokenForEntry entry .failure).entry.isActive = entry.isActive ∧
          (refreshCopilotTokenForEntry entry .failure).persistedDeactivation = false) ∧
        (entry.errorCount + 1 ≥ 3 →
          (refreshCopilotTokenForEntry entry .failure).entry.isActive = false ∧
          (refreshCopilotTokenForEntry entry .failure).persistedDeactivation = true)) ∧
    (∀ entry : TokenEntry, entry.errorCount = 0 → entry.isActive = true →
        (refreshCopilotTokenForEntry entry .failure).entry.isActive = true ∧
        (refreshCopilotTokenForEntry
          (refreshCopilotTokenForEntry entry .failure).entry .failure).entry.isActive = true ∧
        (refreshCopilotTokenForEntry (refreshCopilotTokenForEntry
          (refreshCopilotTokenForEntry entry .failure).entry .failure).entry
            .failure).entry.isActive = false ∧
        (refreshCopilotTokenForEntry (refreshCopilotTokenForEntry
          (refreshCopilotTokenForEntry entry .failure).entry .failure).entry
            .failure).persistedDeactivation = true) ∧
    (∀ entry : TokenEntry, entry.isActive = false →
        ∀ rs : List ExchangeResult,
          (rs.foldl (fun e r => (refreshCopilotTokenForEntry e r).entry) entry).isActive
            = false) ∧
    (∀ tokens githubToken accountType username newId exch,
        (addToken tokens githubToken accountType username newId exch).2.isActive = true) := by
  refine ⟨?_, ?_, ?_, ?_, ?_⟩
  · intro entry tok exp
    simp [refreshCopilotTokenForEntry]
  · intro entry
    refine ⟨?_, ?_, ?_, ?_, ?_⟩
    · simp only [refreshCopilotTokenForEntry]
      split <;> simp
    · simp only [refreshCopilotTokenForEntry]
      split <;> simp
    · simp only [refreshCopilotTokenForEntry]
      split <;> simp [strTruthy]
    · intro hlt
      simp only [refreshCopilotTokenForEntry]
      split
      · next hge => exact absurd hge (by omega)
      · simp
    · intro hge
      simp only [refreshCopilotTokenForEntry]
      split
      · simp
      · next hno => exact absurd (by simpa using hge) hno
  · intro entry h0 hAct
    simp [refreshCopilotTokenForEntry, h0, hAct]
  · intro entry h rs
    induction rs generalizing entry with
    | nil => exact h
    | cons r rest ih =>
        exact ih _ (refresh_keeps_inactive entry r h)
  · intro tokens githubToken accountType username newId exch
    cases hfind : tokens.find? (fun t => t.username = some username) with
    | none =>
        simp only [addToken, hfind]
        exact refresh_keeps_fresh_active _ _ rfl rfl
    | some ex =>
        simp only [addToken, hfind]
        exact refresh_keeps_fresh_active _ _ rfl rfl

/-- C2 witness: the refresh behavior evaluated on a fresh concrete entry,
including the three-failure run, a subsequent outcome list that leaves the
entry inactive, and a reactivating `addToken`. -/
theorem refresh_entry_behavior_witness :
    ((refreshCopilotTokenForEntry
        (⟨1, "gh", some "alice", some "old", some 1, "individual", true, none, 0, 0⟩ :
          TokenEntry) (.success "new" 7)).entry.copilotToken = some "new" ∧
      (refreshCopilotTokenForEntry
        (⟨1, "gh", some "alice", some "old", some 1, "individual", true, none, 0, 0⟩ :
          TokenEntry) (.success "new" 7)).entry.copilotTokenExpiresAt = some (7 * 1000) ∧
      (refreshCopilotTokenForEntry
        (⟨1, "gh", some "alice", some "old", some 1, "individual", true, none, 0, 0⟩ :
          TokenEntry) (.success "new" 7)).entry.errorCount = 0) ∧
    ((0 : Nat) + 1 < 3 →
      (refreshCopilotTokenForEntry
        (⟨1, "gh", some "alice", some "old", some 1, "individual", true, none, 0, 0⟩ :
          TokenEntry) .failure).entry.isActive = true ∧
      (refreshCopilotTokenForEntry
        (⟨1, "gh", some "alice", some "old", some 1, "individual", true, none, 0, 0⟩ :
          TokenEntry) .failure).persistedDeactivation = false) ∧
    (refreshCopilotTokenForEntry (refreshCopilotTokenForEntry
        (refreshCopilotTokenForEntry
          (⟨1, "gh", some "alice", some "old", some 1, "individual", true, none, 0, 0⟩ :
            TokenEntry) .failure).entry .failure).entry .failure).entry.isActive = false ∧
    (([ExchangeResult.success "t" 9, ExchangeResult.failure].foldl
        (fun e r => (refreshCopilotTokenForEntry e r).entry)
        (⟨2, "gh2", some "bob", none, none, "individual", false, none, 0, 4⟩ :
          TokenEntry)).isActive = false) ∧
    (addToken [] "raw" "individual" "alice" 1 .failure).2.isActive = true := by
  have h := refresh_entry_behavior
  refine ⟨h.1 _ "new" 7, ?_, ?_, ?_, ?_⟩
  · intro hlt
    exact (h.2.1 _).2.2.2.1 hlt
  · exact ((h.2.2.1 _ rfl rfl).2.2.1)
  · exact h.2.2.2.1 _ rfl _
  · exact h.2.2.2.2 [] "raw" "individual" "alice" 1 .failure

/-- C5: two `addToken` calls with different raw credentials that resolve to
the same username leave exactly one entry for that username; it stores the
second raw value and is active; a successful immediate exchange leaves the
error count reset and the fresh token stored; a failed immediate exchange
still leaves the entry stored (the add does not fail) with no usable
upstream token. -/
theorem addToken_same_username_single_entry (tokens : List TokenEntry)
    (raw1 raw2 acct1 acct2 username : String) (id1 id2 : Nat)
    (exch1 exch2 : ExchangeResult)
    (hNoUser : ∀ t ∈ tokens, t.username ≠ some username)
    (hFreshId : ∀ t ∈ tokens, t.id ≠ id1) :
    (((addToken (addToken tokens raw1 acct1 username id1 exch1).1
        raw2 acct2 username id2 exch2).1.filter
          (fun t => t.username = some username)).length = 1 ∧
     (addToken (addToken tokens raw1 acct1 username id1 exch1).1
        raw2 acct2 username id2 exch2).2 ∈
       (addToken (addToken tokens raw1 acct1 username id1 exch1).1
          raw2 acct2 username id2 exch2).1 ∧
     (addToken (addToken tokens raw1 acct1 username id1 exch1).1
        raw2 acct2 username id2 exch2).2.username = some username ∧
     (addToken (addToken tokens raw1 acct1 username id1 exch1).1
        raw2 acct2 username id2 exch2).2.githubToken = raw2 ∧
     (addToken (addToken tokens raw1 acct1 username id1 exch1).1
        raw2 acct2 username id2 exch2).2.isActive = true ∧
     (∀ tok exp, exch2 = .success tok exp →
        (addToken (addToken tokens raw1 acct1 username id1 exch1).1
          raw2 acct2 username id2 exch2).2.errorCount = 0 ∧
        (addToken (addToken tokens raw1 acct1 username id1 exch1).1
          raw2 acct2 username id2 exch2).2.copilotToken = some tok) ∧
     (exch2 = .failure →
        (addToken (addToken tokens raw1 acct1 username id1 exch1).1
          raw2 acct2 username id2 exch2).2.copilotToken = none ∧
        (addToken (addToken tokens raw1 acct1 username id1 exch1).1
          raw2 acct2 username id2 exch2).2.errorCount = 1)) := by
  -- The first call takes the creation path.
  have hfind1 : tokens.find? (fun t => t.username = some username) = none := by
    rw [List.find?_eq_none]
    intro t ht
    simp [hNoUser t ht]
  set newEntry : TokenEntry :=
    { id := id1, githubToken := raw1, username := some username,
      copilotToken := none, copilotTokenExpiresAt := none,
      accountType := acct1, isActive := true, lastUsed := none,
      requestCount := 0, errorCount := 0 } with hnewEntry
  set e1 : TokenEntry := (refreshCopilotTokenForEntry newEntry exch1).entry with he1
  have h1 : (addToken tokens raw1 acct1 username id1 exch1).1 = tokens ++ [e1] := by
    simp only [addToken, hfind1]
  have he1user : e1.username = some username := by
    rw [he1, (refresh_preserves_fields newEntry exch1).2.2.1]
  have he1id : e1.id = id1 := by
    rw [he1, (refresh_preserves_fields newEntry exch1).1]
  -- The second call finds e1 and takes the update path.
  have hfind2 : (tokens ++ [e1]).find? (fun t => t.username = some username) = some e1 := by
    rw [list_find?_append, hfind1]
    simp [List.find?_cons, he1user]
  set updated0 : TokenEntry :=
    { e1 with githubToken := raw2, isActive := true, errorCount := 0 } with hupd0
  set e2 : TokenEntry := (refreshCopilotTokenForEntry updated0 exch2).entry with he2
  have h2main : (addToken (tokens ++ [e1]) raw2 acct2 username id2 exch2)
      = ((tokens ++ [e1]).map (fun t => if t.id = e1.id then e2 else t), e2) := by
    simp only [addToken, hfind2]
  have hmap : (tokens ++ [e1]).map (fun t => if t.id = e1.id then e2 else t)
      = tokens ++ [e2] := by
    rw [List.map_append, list_map_id_of tokens _ (fun t ht => by
      rw [if_neg]
      rw [he1id]
      exact hFreshId t ht)]
    simp
  have he2user : e2.username = some username := by
    rw [he2, (refresh_preserves_fields updated0 exch2).2.2.1, hupd0]
    exact he1user
  have he2git : e2.githubToken = raw2 := by
    rw [he2, (refresh_preserves_fields updated0 exch2).2.1]
  have he2act : e2.isActive = true := refresh_keeps_fresh_active updated0 exch2 rfl rfl
  have hfull : (addToken (addToken tokens raw1 acct1 username id1 exch1).1
      raw2 acct2 username id2 exch2) = (tokens ++ [e2], e2) := by
    rw [h1, h2main, hmap]
  rw [hfull]
  refine ⟨?_, by simp, he2user, he2git, he2act, ?_, ?_⟩
  · rw [List.filter_append]
    have : tokens.filter (fun t => decide (t.username = some username)) = [] := by
      rw [List.filter_eq_nil_iff]
      intro t ht
      simp [hNoUser t ht]
    rw [this]
    simp [he2user]
  · intro tok exp hsucc
    rw [he2, hsucc]
    simp [refreshCopilotTokenForEntry]
  · intro hfail
    rw [he2, hfail]
    simp [refreshCopilotTokenForEntry, hupd0]

/-- C5 witness: the double add evaluated on an empty pool with a failing
second exchange. -/
theorem addToken_same_username_single_entry_witness :
    (((addToken (addToken [] "rawA" "individual" "alice" 1 (.success "t1" 5)).1
        "rawB" "business" "alice" 2 .failure).1.filter
          (fun t => t.username = some "alice")).length = 1 ∧
     (addToken (addToken [] "rawA" "individual" "alice" 1 (.success "t1" 5)).1
        "rawB" "business" "alice" 2 .failure).2 ∈
       (addToken (addToken [] "rawA" "individual" "alice" 1 (.success "t1" 5)).1
          "rawB" "business" "alice" 2 .failure).1 ∧
     (addToken (addToken [] "rawA" "individual" "alice" 1 (.success "t1" 5)).1
        "rawB" "business" "alice" 2 .failure).2.username = some "alice" ∧
     (addToken (addToken [] "rawA" "individual" "alice" 1 (.success "t1" 5)).1
        "rawB" "business" "alice" 2 .failure).2.githubToken = "rawB" ∧
     (addToken (addToken [] "rawA" "individual" "alice" 1 (.success "t1" 5)).1
        "rawB" "business" "alice" 2 .failure).2.isActive = true ∧
     (∀ tok exp, ExchangeResult.failure = ExchangeResult.success tok exp →
        (addToken (addToken [] "rawA" "individual" "alice" 1 (.success "t1" 5)).1
          "rawB" "business" "alice" 2 .failure).2.errorCount = 0 ∧
        (addToken (addToken [] "rawA" "individual" "alice" 1 (.success "t1" 5)).1
          "rawB" "business" "alice" 2 .failure).2.copilotToken = some tok) ∧
     (ExchangeResult.failure = ExchangeResult.failure →
        (addToken (addToken [] "rawA" "individual" "alice" 1 (.success "t1" 5)).1
          "rawB" "business" "alice" 2 .failure).2.copilotToken = none ∧
        (addToken (addToken [] "rawA" "individual" "alice" 1 (.success "t1" 5)).1
          "rawB" "business" "alice" 2 .failure).2.errorCount = 1)) := by
  exact addToken_same_username_single_entry [] "rawA" "rawB" "individual" "business"
    "alice" 1 2 (.success "t1" 5) .failure (by simp) (by simp)

set_option maxRecDepth 8192 in
/-- C7 counterexample: an Anthropic request whose system instruction is two
text blocks of 200 characters each has exactly 400 characters of textual
content, yet the count-tokens handler reports 101, not 100: the handler
measures the translated canonical payload, in which the two blocks are
joined with a blank-line separator (2 extra characters), giving
`ceil(402 / 4) = 101`. -/
theorem countTokens_anthropic_counterexample :
    specAnthropicTextChars []
      (some (.inr [String.mk (List.replicate 200 'a'),
                   String.mk (List.replicate 200 'a')])) = 400 ∧
    countTokensAnthropic []
      (some (.inr [String.mk (List.replicate 200 'a'),
                   String.mk (List.replicate 200 'a')])) = 101 := by
  exact ⟨rfl, rfl⟩

/-- C7 (amended): both count-tokens endpoints return
`ceil(totalChars / 4)` where `totalChars` measures the canonical textual
content: for the Gemini endpoint this equals exactly the sum of the
character lengths of all request part texts including the system
instruction; for the Anthropic endpoint it equals that sum whenever the
system instruction and all message contents are plain strings (multi-block
content additionally counts the blank-line join separators introduced by
translation). -/
theorem countTokens_heuristic (contents : Option (List GeminiContentE))
    (systemInstruction : Option GeminiContentE) :
    countTokensGemini contents systemInstruction
      = (specGeminiTextChars contents systemInstruction + 3) / 4 ∧
    (∀ (messages : List AnthropicMessageE) (system : Option (String ⊕ List String)),
        systemStringOnly system = true →
        (∀ m ∈ messages, isStringContent m = true) →
        countTokensAnthropic messages system
          = (specAnthropicTextChars messages system + 3) / 4) := by
  constructor
  · rfl
  · intro messages system hsys hmsgs
    have hmsgEq : ∀ ms : List AnthropicMessageE, (∀ m ∈ ms, isStringContent m = true) →
        ((ms.flatMap (fun m =>
            match m with
            | .user c => handleUserMessage c
            | .assistant c => handleAssistantMessage c)).map messageChars).sum
          = (ms.map msgTextChars).sum := by
      intro ms
      induction ms with
      | nil => intro _; rfl
      | cons m rest ih =>
          intro hall
          have hm := hall m (by simp)
          have hrest := ih (fun x hx => hall x (by simp [hx]))
          match m with
          | .user (.inl s) =>
              simp only [List.flatMap_cons, List.map_append, List.sum_append, hrest,
                List.map_cons, List.sum_cons]
              rfl
          | .assistant (.inl s) =>
              simp only [List.flatMap_cons, List.map_append, List.sum_append, hrest,
                List.map_cons, List.sum_cons]
              rfl
          | .user (.inr bs) => exact absurd hm (by simp [isStringContent])
          | .assistant (.inr bs) => exact absurd hm (by simp [isStringContent])
    simp only [countTokensAnthropic, translateAnthropicMessagesToOpenAI,
      specAnthropicTextChars, List.map_append, List.sum_append, hmsgEq messages hmsgs]
    cases system with
    | none => rfl
    | some sys =>
        cases sys with
        | inl s => rfl
        | inr bs => exact absurd hsys (by simp [systemStringOnly])

set_option maxRecDepth 16384 in
/-- C7 witness: a Gemini request and an Anthropic request each carrying a
single 400-character text yield exactly 100. -/
theorem countTokens_heuristic_witness :
    (countTokensGemini
        (some [⟨some [⟨some (String.mk (List.replicate 400 'a'))⟩]⟩]) none
      = (specGeminiTextChars
          (some [⟨some [⟨some (String.mk (List.replicate 400 'a'))⟩]⟩]) none + 3) / 4) ∧
    (countTokensAnthropic
        [.user (.inl (String.mk (List.replicate 400 'a')))] none
      = (specAnthropicTextChars
          [.user (.inl (String.mk (List.replicate 400 'a')))] none + 3) / 4) ∧
    specGeminiTextChars
        (some [⟨some [⟨some (String.mk (List.replicate 400 'a'))⟩]⟩]) none = 400 ∧
    countTokensAnthropic
        [.user (.inl (String.mk (List.replicate 400 'a')))] none = 100 := by
  refine ⟨(countTokens_heuristic _ _).1, ?_, rfl, rfl⟩
  exact (countTokens_heuristic none none).2
    [.user (.inl (String.mk (List.replicate 400 'a')))] none rfl
    (by intro m hm; simp at hm; rw [hm]; rfl)

/-- Helper: `scanBlocks` distributes over append. -/
theorem scanBlocks_append (l1 l2 : List AnthropicStreamEvent) (b : Bool) :
    scanBlocks b (l1 ++ l2) = (scanBlocks b l1).bind (fun b1 => scanBlocks b1 l2) := by
  induction l1 generalizing b with
  | nil => simp [scanBlocks]
  | cons e rest ih => cases e <;> cases b <;> simp [scanBlocks, ih]

/-- Helper: `scanMS` distributes over append. -/
theorem scanMS_append (l1 l2 : List AnthropicStreamEvent) (b : Bool) :
    scanMS b (l1 ++ l2) = (scanMS b l1).bind (fun b1 => scanMS b1 l2) := by
  induction l1 generalizing b with
  | nil => simp [scanMS]
  | cons e rest ih => cases e <;> cases b <;> simp [scanMS, ih]

/-- Helper: a sequence without `message_start` scans through `scanMS` with
the flag already set. -/
theorem scanMS_true_of_no_ms (l : List AnthropicStreamEvent)
    (h : ∀ e ∈ l, isMsgStart e = false) : scanMS true l = some true := by
  induction l with
  | nil => rfl
  | cons e rest ih =>
      have he := h e (by simp)
      have hrest := ih (fun x hx => h x (by simp [hx]))
      cases e <;> simp [scanMS, hrest] <;> simp [isMsgStart] at he

/-- Helper: dictionary read after writing the same key. -/
theorem lookupTC_insert_self (m : List (Nat × ToolCallInfo)) (i : Nat)
    (info : ToolCallInfo) : lookupTC (insertTC m i info) i = some info := by
  simp [lookupTC, insertTC, List.find?_cons]

/-- Helper: filtering out one key leaves lookups of other keys unchanged. -/
theorem find?_key_filter (m : List (Nat × ToolCallInfo)) (i j : Nat) (h : j ≠ i) :
    (m.filter (fun p => p.1 ≠ i)).find? (fun p => p.1 = j)
      = m.find? (fun p => p.1 = j) := by
  induction m with
  | nil => rfl
  | cons a rest ih =>
      by_cases haj : a.1 = j
      · have ha : ¬(a.1 = i) := by rw [haj]; exact h
        rw [List.filter_cons, if_pos (by simp [ha]), List.find?_cons, List.find?_cons]
        have hd : decide (a.1 = j) = true := by simp [haj]
        rw [hd]
      · have hd : decide (a.1 = j) = false := by simp [haj]
        by_cases ha : a.1 = i
        · rw [List.filter_cons, if_neg (by simp [ha]), List.find?_cons, hd]
          exact ih
        · rw [List.filter_cons, if_pos (by simp [ha]), List.find?_cons, List.find?_cons, hd]
          exact ih

/-- Helper: dictionary read after writing a different key. -/
theorem lookupTC_insert_ne (m : List (Nat × ToolCallInfo)) (i j : Nat)
    (info : ToolCallInfo) (h : j ≠ i) :
    lookupTC (insertTC m i info) j = lookupTC m j := by
  unfold lookupTC insertTC
  rw [List.find?_cons]
  have hd : decide ((i, info).1 = j) = false := by
    simp only [decide_eq_false_iff_not]
    exact fun hh => h hh.symm
  rw [hd, find?_key_filter m i j h]

/-- Helper: state fields not touched by the message-start section. -/
theorem msgStartPhase_facts (c : ChatCompletionChunk) (s : AnthropicStreamState) :
    (msgStartPhase c s).2.contentBlockOpen = s.contentBlockOpen ∧
    (msgStartPhase c s).2.contentBlockIndex = s.contentBlockIndex ∧
    (msgStartPhase c s).2.toolCalls = s.toolCalls ∧
    (msgStartPhase c s).2.messageStartSent = true := by
  by_cases h : s.messageStartSent <;> simp [msgStartPhase, h]

/-- Helper: state fields not touched by the text section. -/
theorem textPhase_facts (content : Option String) (s : AnthropicStreamState) :
    (textPhase content s).2.messageStartSent = s.messageStartSent ∧
    (textPhase content s).2.toolCalls = s.toolCalls := by
  cases content with
  | none => simp [textPhase]
  | some txt =>
      by_cases h1 : txt = "" <;> by_cases h2 : isToolBlockOpen s <;>
        by_cases h3 : s.contentBlockOpen <;> simp [textPhase, h1, h2, h3]

/-- Helper: the tool-call loop body never touches the message-start flag. -/
theorem processToolCall_sent (s : AnthropicStreamState) (tc : StreamToolCall) :
    (processToolCall s tc).2.messageStartSent = s.messageStartSent := by
  by_cases hreg : (strTruthy tc.id && strTruthy (tc.func.bind fun f => f.name)) = true <;>
    by_cases hopen : s.contentBlockOpen = true <;>
      simp [processToolCall, hreg, hopen]

/-- Helper: the tool-call loop never touches the message-start flag. -/
theorem processToolCalls_sent (tcs : List StreamToolCall) (s : AnthropicStreamState) :
    (processToolCalls tcs s).2.messageStartSent = s.messageStartSent := by
  induction tcs generalizing s with
  | nil => rfl
  | cons tc rest ih =>
      simp only [processToolCalls]
      rw [ih, processToolCall_sent]

/-- Helper: the tool section never touches the message-start flag. -/
theorem toolPhase_sent (tcs : Option (List StreamToolCall)) (s : AnthropicStreamState) :
    (toolPhase tcs s).2.messageStartSent = s.messageStartSent := by
  cases tcs with
  | none => rfl
  | some l => exact processToolCalls_sent l s

/-- Helper: state fields not touched by the finish section. -/
theorem finishPhase_facts (fr : Option String) (u : Option UsageInfo)
    (s : AnthropicStreamState) :
    (finishPhase fr u s).2.messageStartSent = s.messageStartSent ∧
    (finishPhase fr u s).2.toolCalls = s.toolCalls ∧
    (finishPhase fr u s).2.contentBlockIndex = s.contentBlockIndex := by
  by_cases h1 : strTruthy fr = true <;> by_cases h2 : s.contentBlockOpen = true <;>
    simp [finishPhase, h1, h2]

/-- Helper: the message-start section scans cleanly for block balance. -/
theorem scanBlocks_msgStartPhase (c : ChatCompletionChunk) (s : AnthropicStreamState) :
    scanBlocks s.contentBlockOpen (msgStartPhase c s).1
      = some ((msgStartPhase c s).2.contentBlockOpen) := by
  by_cases h : s.messageStartSent <;> cases hb : s.contentBlockOpen <;>
    simp [msgStartPhase, h, hb, scanBlocks]

/-- Helper: the text section scans cleanly for block balance. -/
theorem scanBlocks_textPhase (content : Option String) (s : AnthropicStreamState) :
    scanBlocks s.contentBlockOpen (textPhase content s).1
      = some ((textPhase content s).2.contentBlockOpen) := by
  cases content with
  | none => simp [textPhase, scanBlocks]
  | some txt =>
      by_cases h1 : txt = ""
      · simp [textPhase, h1, scanBlocks]
      · by_cases h2 : isToolBlockOpen s
        · have hopen : s.contentBlockOpen = true := by
            have h2' := h2
            unfold isToolBlockOpen at h2'
            exact (Bool.and_eq_true _ _).mp h2' |>.1
          simp [textPhase, h1, h2, hopen, scanBlocks]
        · by_cases h3 : s.contentBlockOpen <;>
            simp [textPhase, h1, h2, h3, scanBlocks]

/-- Helper: one tool-call loop iteration scans cleanly for block balance. -/
theorem scanBlocks_processToolCall (s : AnthropicStreamState) (tc : StreamToolCall) :
    scanBlocks s.contentBlockOpen (processToolCall s tc).1
      = some ((processToolCall s tc).2.contentBlockOpen) := by
  have B : ∀ (b : Bool) (l : List AnthropicStreamEvent),
      (∀ e ∈ l, ∃ i d, e = .contentBlockDelta i d) → scanBlocks b l = some b := by
    intro b l hl
    induction l with
    | nil => rfl
    | cons e rest ih =>
        obtain ⟨i, d, rfl⟩ := hl e (by simp)
        cases b <;> simp [scanBlocks, ih (fun x hx => hl x (by simp [hx]))]
  have hB : ∀ (b : Bool) (args : Option String) (m : List (Nat × ToolCallInfo)),
      scanBlocks b (if strTruthy args = true then
          match lookupTC m tc.index with
          | some tcInfo => [AnthropicStreamEvent.contentBlockDelta
              tcInfo.anthropicBlockIndex (.inputJsonDelta (args.getD ""))]
          | none => []
        else []) = some b := by
    intro b args m
    split
    · split
      · exact B b _ (by simp)
      · exact B b _ (by simp)
    · exact B b _ (by simp)
  by_cases hreg : (strTruthy tc.id && strTruthy (tc.func.bind fun f => f.name)) = true
  · by_cases hopen : s.contentBlockOpen = true
    · simp only [processToolCall, hreg, if_true, hopen]
      rw [scanBlocks_append]
      simp only [hopen, scanBlocks, if_true, if_false, Bool.false_eq_true]
      exact hB _ _ _
    · simp only [processToolCall, hreg, if_true, hopen]
      rw [scanBlocks_append]
      have hb : s.contentBlockOpen = false := Bool.not_eq_true _ |>.mp hopen
      simp only [hb, scanBlocks, if_false, Bool.false_eq_true, List.nil_append]
      exact hB _ _ _
  · simp only [processToolCall, hreg, if_false, Bool.false_eq_true, List.nil_append]
    exact hB _ _ _

/-- Helper: the tool-call loop scans cleanly for block balance. -/
theorem scanBlocks_processToolCalls (tcs : List StreamToolCall) (s : AnthropicStreamState) :
    scanBlocks s.contentBlockOpen (processToolCalls tcs s).1
      = some ((processToolCalls tcs s).2.contentBlockOpen) := by
  induction tcs generalizing s with
  | nil => rfl
  | cons tc rest ih =>
      simp only [processToolCalls]
      rw [scanBlocks_append, scanBlocks_processToolCall]
      simp only [Option.some_bind]
      exact ih _

/-- Helper: the tool section scans cleanly for block balance. -/
theorem scanBlocks_toolPhase (tcs : Option (List StreamToolCall)) (s : AnthropicStreamState) :
    scanBlocks s.contentBlockOpen (toolPhase tcs s).1
      = some ((toolPhase tcs s).2.contentBlockOpen) := by
  cases tcs with
  | none => rfl
  | some l => exact scanBlocks_processToolCalls l s

/-- Helper: the finish section scans cleanly for block balance. -/
theorem scanBlocks_finishPhase (fr : Option String) (u : Option UsageInfo)
    (s : AnthropicStreamState) :
    scanBlocks s.contentBlockOpen (finishPhase fr u s).1
      = some ((finishPhase fr u s).2.contentBlockOpen) := by
  by_cases h1 : strTruthy fr = true
  · by_cases h2 : s.contentBlockOpen = true <;>
      simp [finishPhase, h1, h2, scanBlocks]
  · simp [finishPhase, h1, scanBlocks]

/-- Helper: one chunk scans cleanly for block balance. -/
theorem scanBlocks_chunk (c : ChatCompletionChunk) (s : AnthropicStreamState) :
    scanBlocks s.contentBlockOpen (translateChunkToAnthropicEvents c s).1
      = some ((translateChunkToAnthropicEvents c s).2.contentBlockOpen) := by
  cases hc : c.choices with
  | nil => simp [translateChunkToAnthropicEvents, hc, scanBlocks]
  | cons choice rest =>
      simp only [translateChunkToAnthropicEvents, hc, List.append_assoc]
      rw [scanBlocks_append, scanBlocks_msgStartPhase]
      simp only [Option.some_bind]
      rw [scanBlocks_append, scanBlocks_textPhase]
      simp only [Option.some_bind]
      rw [scanBlocks_append, scanBlocks_toolPhase]
      simp only [Option.some_bind]
      exact scanBlocks_finishPhase _ _ _

/-- Helper: the whole stream scans cleanly for block balance. -/
theorem scanBlocks_processChunks (chunks : List ChatCompletionChunk)
    (s : AnthropicStreamState) :
    scanBlocks s.contentBlockOpen (processChunks chunks s).1
      = some ((processChunks chunks s).2.contentBlockOpen) := by
  induction chunks generalizing s with
  | nil => rfl
  | cons c rest ih =>
      simp only [processChunks]
      rw [scanBlocks_append, scanBlocks_chunk]
      simp only [Option.some_bind]
      exact ih _

/-- Helper: the text section never emits `message_start`. -/
theorem textPhase_no_ms (content : Option String) (s : AnthropicStreamState) :
    ∀ e ∈ (textPhase content s).1, isMsgStart e = false := by
  cases content with
  | none => simp [textPhase]
  | some txt =>
      by_cases h1 : txt = "" <;> by_cases h2 : isToolBlockOpen s <;>
        by_cases h3 : s.contentBlockOpen <;>
          simp [textPhase, h1, h2, h3, isMsgStart] <;>
            intro e he <;> rcases he with he | he | he <;> simp [he, isMsgStart]

/-- Helper: the tool-call loop body never emits `message_start`. -/
theorem processToolCall_no_ms (s : AnthropicStreamState) (tc : StreamToolCall) :
    ∀ e ∈ (processToolCall s tc).1, isMsgStart e = false := by
  have hB : ∀ (args : Option String) (m : List (Nat × ToolCallInfo)),
      ∀ e ∈ (if strTruthy args = true then
          match lookupTC m tc.index with
          | some tcInfo => [AnthropicStreamEvent.contentBlockDelta
              tcInfo.anthropicBlockIndex (.inputJsonDelta (args.getD ""))]
          | none => []
        else []), isMsgStart e = false := by
    intro args m e he
    revert he
    split
    · split <;> simp [isMsgStart] <;> intro he <;> simp [he, isMsgStart]
    · simp
  by_cases hreg : (strTruthy tc.id && strTruthy (tc.func.bind fun f => f.name)) = true
  · by_cases hopen : s.contentBlockOpen = true
    · intro e he
      simp only [processToolCall, hreg, hopen, if_true, List.cons_append, List.nil_append,
        List.mem_append, List.mem_cons, List.not_mem_nil, or_false] at he
      rcases he with rfl | rfl | he
      · rfl
      · rfl
      · exact hB _ _ e he
    · intro e he
      simp only [processToolCall, hreg, hopen, if_true, if_false, Bool.false_eq_true,
        List.nil_append, List.mem_append, List.mem_cons, List.not_mem_nil, or_false] at he
      rcases he with rfl | he
      · rfl
      · exact hB _ _ e he
  · intro e he
    simp only [processToolCall, hreg, if_false, Bool.false_eq_true, List.nil_append] at he
    exact hB _ _ e he

/-- Helper: the tool-call loop never emits `message_start`. -/
theorem processToolCalls_no_ms (tcs : List StreamToolCall) (s : AnthropicStreamState) :
    ∀ e ∈ (processToolCalls tcs s).1, isMsgStart e = false := by
  induction tcs generalizing s with
  | nil => simp [processToolCalls]
  | cons tc rest ih =>
      intro e he
      simp only [processToolCalls, List.mem_append] at he
      rcases he with he | he
      · exact processToolCall_no_ms s tc e he
      · exact ih _ e he

/-- Helper: the tool section never emits `message_start`. -/
theorem toolPhase_no_ms (tcs : Option (List StreamToolCall)) (s : AnthropicStreamState) :
    ∀ e ∈ (toolPhase tcs s).1, isMsgStart e = false := by
  cases tcs with
  | none => simp [toolPhase]
  | some l => exact processToolCalls_no_ms l s

/-- Helper: the finish section never emits `message_start`. -/
theorem finishPhase_no_ms (fr : Option String) (u : Option UsageInfo)
    (s : AnthropicStreamState) :
    ∀ e ∈ (finishPhase fr u s).1, isMsgStart e = false := by
  by_cases h1 : strTruthy fr = true <;> by_cases h2 : s.contentBlockOpen = true <;>
    simp [finishPhase, h1, h2, isMsgStart] <;>
      intro e he <;> rcases he with he | he | he <;> simp [he, isMsgStart]

/-- Helper: one chunk scans cleanly for the message-start discipline. -/
theorem scanMS_chunk (c : ChatCompletionChunk) (s : AnthropicStreamState) :
    scanMS s.messageStartSent (translateChunkToAnthropicEvents c s).1
      = some ((translateChunkToAnthropicEvents c s).2.messageStartSent) := by
  cases hc : c.choices with
  | nil => simp [translateChunkToAnthropicEvents, hc, scanMS]
  | cons choice rest =>
      simp only [translateChunkToAnthropicEvents, hc, List.append_assoc]
      rw [scanMS_append]
      have h1 : scanMS s.messageStartSent (msgStartPhase c s).1 = some true := by
        by_cases hs : s.messageStartSent <;> simp [msgStartPhase, hs, scanMS]
      rw [h1]
      simp only [Option.some_bind]
      rw [scanMS_append, scanMS_true_of_no_ms _ (textPhase_no_ms _ _)]
      simp only [Option.some_bind]
      rw [scanMS_append, scanMS_true_of_no_ms _ (toolPhase_no_ms _ _)]
      simp only [Option.some_bind]
      rw [scanMS_true_of_no_ms _ (finishPhase_no_ms _ _ _)]
      rw [(finishPhase_facts _ _ _).1, toolPhase_sent, (textPhase_facts _ _).1,
        (msgStartPhase_facts c s).2.2.2]

/-- Helper: the whole stream scans cleanly for the message-start
discipline. -/
theorem scanMS_processChunks (chunks : List ChatCompletionChunk)
    (s : AnthropicStreamState) :
    scanMS s.messageStartSent (processChunks chunks s).1
      = some ((processChunks chunks s).2.messageStartSent) := by
  induction chunks generalizing s with
  | nil => rfl
  | cons c rest ih =>
      simp only [processChunks]
      rw [scanMS_append, scanMS_chunk]
      simp only [Option.some_bind]
      exact ih _

/-- Helper: a successful block scan means every `message_stop` sees all
earlier blocks closed. -/
theorem scanBlocks_prefix_of_msgStop (l1 l2 : List AnthropicStreamEvent) (b : Bool)
    (h : scanBlocks false (l1 ++ .messageStop :: l2) = some b) :
    scanBlocks false l1 = some false := by
  rw [scanBlocks_append] at h
  cases h1 : scanBlocks false l1 with
  | none => rw [h1] at h; simp at h
  | some b1 =>
      cases b1
      · exact h1.symm ▸ rfl
      · rw [h1] at h
        simp [scanBlocks] at h

/-- Helper: with the flag set, a later `message_start` poisons the scan. -/
theorem scanMS_true_msgStart_none (l l2 : List AnthropicStreamEvent)
    (id model : String) (u : AnthropicUsageE) :
    scanMS true (l ++ .messageStart id model u :: l2) = none := by
  induction l with
  | nil => simp [scanMS]
  | cons e rest ih => cases e <;> simp [scanMS, ih]

/-- Helper: a successful message-start scan from an unsent flag puts any
`message_start` at the very front. -/
theorem scanMS_msgStart_first (l1 l2 : List AnthropicStreamEvent) (b : Bool)
    (id model : String) (u : AnthropicUsageE)
    (h : scanMS false (l1 ++ .messageStart id model u :: l2) = some b) :
    l1 = [] := by
  cases l1 with
  | nil => rfl
  | cons e rest =>
      exfalso
      cases e <;> simp only [List.cons_append, scanMS, if_false, Bool.false_eq_true,
        reduceIte] at h
      all_goals first
        | exact Option.noConfusion h
        | (simp only [List.append_eq] at h
           rw [scanMS_true_msgStart_none] at h
           exact Option.noConfusion h)

/-- C3: streaming translation invariant.  For any finite chunk sequence fed
through one fresh stream state: the emitted event sequence passes
`scanBlocks` (so at most one content block is open at any point, every
`content_block_stop` closes a previously opened block, and at every
`message_stop` every previously opened block has been closed, i.e. every
emitted `content_block_start` before a `message_stop` has a matching
`content_block_stop` before it) and passes `scanMS` (so the one-time
`message_start` precedes every other emitted event); the scans moreover
return exactly the final translator state flags. -/
theorem streaming_translation_invariant (chunks : List ChatCompletionChunk) :
    scanBlocks false (processChunks chunks initialStreamState).1
      = some (processChunks chunks initialStreamState).2.contentBlockOpen ∧
    scanMS false (processChunks chunks initialStreamState).1
      = some (processChunks chunks initialStreamState).2.messageStartSent ∧
    (∀ l1 l2, (processChunks chunks initialStreamState).1
        = l1 ++ .messageStop :: l2 → scanBlocks false l1 = some false) ∧
    (∀ l1 l2 id model u, (processChunks chunks initialStreamState).1
        = l1 ++ .messageStart id model u :: l2 → l1 = []) := by
  have hB := scanBlocks_processChunks chunks initialStreamState
  have hM := scanMS_processChunks chunks initialStreamState
  refine ⟨hB, hM, ?_, ?_⟩
  · intro l1 l2 hsplit
    rw [hsplit] at hB
    exact scanBlocks_prefix_of_msgStop l1 l2 _ hB
  · intro l1 l2 id model u hsplit
    rw [hsplit] at hM
    exact scanMS_msgStart_first l1 l2 _ id model u hM

/-- C3 witness: the invariant applied to a concrete stream of one chunk
carrying a text delta and a finish reason, including the concrete
message-stop split. -/
theorem streaming_translation_invariant_witness :
    scanBlocks false (processChunks
        [⟨"id", "m", [⟨some ⟨some "hi", none⟩, some "stop"⟩], none⟩]
        initialStreamState).1 = some false ∧
    scanMS false (processChunks
        [⟨"id", "m", [⟨some ⟨some "hi", none⟩, some "stop"⟩], none⟩]
        initialStreamState).1 = some true ∧
    scanBlocks false
      [AnthropicStreamEvent.messageStart "id" "m" ⟨0, 0, none⟩,
       .contentBlockStart 0 .text,
       .contentBlockDelta 0 (.textDelta "hi"),
       .contentBlockStop 0,
       .messageDelta (some "end_turn") ⟨0, 0, none⟩] = some false := by
  have h := streaming_translation_invariant
    [⟨"id", "m", [⟨some ⟨some "hi", none⟩, some "stop"⟩], none⟩]
  refine ⟨h.1, h.2.1, ?_⟩
  exact h.2.2.1
    [AnthropicStreamEvent.messageStart "id" "m" ⟨0, 0, none⟩,
     .contentBlockStart 0 .text,
     .contentBlockDelta 0 (.textDelta "hi"),
     .contentBlockStop 0,
     .messageDelta (some "end_turn") ⟨0, 0, none⟩] [] (by rfl)

/-- Helper: a missing key means no entry carries it. -/
theorem lookupTC_eq_none_iff (m : List (Nat × ToolCallInfo)) (i : Nat) :
    lookupTC m i = none ↔ ∀ p ∈ m, p.1 ≠ i := by
  unfold lookupTC
  rw [Option.map_eq_none']
  rw [List.find?_eq_none]
  constructor
  · intro h p hp
    have := h p hp
    simpa using this
  · intro h p hp
    simp [h p hp]

/-- Helper: a found entry is a member. -/
theorem lookupTC_mem (m : List (Nat × ToolCallInfo)) (i : Nat) (info : ToolCallInfo)
    (h : lookupTC m i = some info) : (i, info) ∈ m := by
  unfold lookupTC at h
  rw [Option.map_eq_some'] at h
  obtain ⟨p, hp, hsnd⟩ := h
  have hmem := List.mem_of_find?_eq_some hp
  have hfst : p.1 = i := by simpa using List.find?_some hp
  have : p = (i, info) := by
    cases p
    simp only at hfst hsnd
    simp [hfst, hsnd]
  rw [this] at hmem
  exact hmem

/-- Helper: inserting a fresh key removes nothing. -/
theorem insertTC_fresh (m : List (Nat × ToolCallInfo)) (i : Nat) (info : ToolCallInfo)
    (h : lookupTC m i = none) : insertTC m i info = (i, info) :: m := by
  unfold insertTC
  rw [List.filter_eq_self.mpr]
  intro p hp
  simp [(lookupTC_eq_none_iff m i).mp h p hp]

/-- Helper: under the state invariant, distinct registered indices occupy
distinct block indices. -/
theorem stateInv_blocks_ne (s : AnthropicStreamState) (hInv : StateInv s)
    (i j : Nat) (a b : ToolCallInfo)
    (ha : lookupTC s.toolCalls i = some a) (hb : lookupTC s.toolCalls j = some b)
    (hij : i ≠ j) : a.anthropicBlockIndex ≠ b.anthropicBlockIndex := by
  intro heq
  have hma := lookupTC_mem _ _ _ ha
  have hmb := lookupTC_mem _ _ _ hb
  have := List.inj_on_of_nodup_map hInv.2.2 hma hmb (by simpa using heq)
  exact hij (by simpa using congrArg Prod.fst this)

/-- Helper: a registered entry occupies a used block. -/
theorem blockUsed_of_lookup (m : List (Nat × ToolCallInfo)) (i : Nat)
    (info : ToolCallInfo) (h : lookupTC m i = some info) :
    BlockUsed m info.anthropicBlockIndex :=
  ⟨(i, info), lookupTC_mem _ _ _ h, rfl⟩

/-- Helper: the message-start section preserves the state invariant. -/
theorem stateInv_msgStartPhase (c : ChatCompletionChunk) (s : AnthropicStreamState)
    (h : StateInv s) : StateInv (msgStartPhase c s).2 := by
  obtain ⟨f1, f2, f3, _⟩ := msgStartPhase_facts c s
  unfold StateInv at h ⊢
  rw [f1, f2, f3]
  exact h

/-- Helper: the three possible state outcomes of the text section. -/
theorem textPhase_state_cases (content : Option String) (s : AnthropicStreamState) :
    (textPhase content s).2 = s ∨
    (textPhase content s).2 = { s with contentBlockOpen := true } ∨
    (textPhase content s).2 = { s with contentBlockIndex := s.contentBlockIndex + 1,
                                       contentBlockOpen := true } := by
  cases content with
  | none => left; rfl
  | some txt =>
      by_cases ht : txt = ""
      · left; simp [textPhase, ht]
      · by_cases htool : isToolBlockOpen s = true
        · right; right; simp [textPhase, ht, htool]
        · by_cases hopen : s.contentBlockOpen = true
          · left; simp [textPhase, ht, htool, hopen]
          · right; left; simp [textPhase, ht, htool, hopen]

/-- Helper: the text section preserves the state invariant. -/
theorem stateInv_textPhase (content : Option String) (s : AnthropicStreamState)
    (h : StateInv s) : StateInv (textPhase content s).2 := by
  obtain ⟨h1, h2, h3⟩ := h
  rcases textPhase_state_cases content s with hc | hc | hc <;> rw [hc]
  · exact ⟨h1, h2, h3⟩
  · refine ⟨h1, ?_, h3⟩
    intro p hp
    exact ⟨(h2 p hp).1, fun _ => rfl⟩
  · refine ⟨h1, ?_, h3⟩
    intro p hp
    have hb := (h2 p hp).1
    refine ⟨?_, fun _ => rfl⟩
    show p.2.anthropicBlockIndex ≤ s.contentBlockIndex + 1
    omega

/-- Helper: with no finish reason the finish section is a no-op. -/
theorem finishPhase_noop (fr : Option String) (u : Option UsageInfo)
    (s : AnthropicStreamState) (h : strTruthy fr = false) :
    finishPhase fr u s = ([], s) := by
  simp [finishPhase, h]

/-- Helper: a non-introducing delta leaves the state untouched. -/
theorem ptc_nonintro_state (s : AnthropicStreamState) (tc : StreamToolCall)
    (h : isIntroD tc = false) : (processToolCall s tc).2 = s := by
  have hc : (strTruthy tc.id && strTruthy (tc.func.bind fun f => f.name)) = false := h
  simp [processToolCall, hc]

/-- Helper: the state after an introducing delta: any open block is closed
(advancing the index), the provider index is registered at the fresh block
index, and the new tool block is open. -/
theorem ptc_intro_state (s : AnthropicStreamState) (tc : StreamToolCall)
    (h : isIntroD tc = true) :
    (processToolCall s tc).2 =
      { messageStartSent := s.messageStartSent
        contentBlockIndex :=
          if s.contentBlockOpen = true then s.contentBlockIndex + 1
          else s.contentBlockIndex
        contentBlockOpen := true
        toolCalls := insertTC s.toolCalls tc.index
          ⟨tc.id.getD "", (tc.func.bind fun f => f.name).getD "",
           if s.contentBlockOpen = true then s.contentBlockIndex + 1
           else s.contentBlockIndex⟩ } := by
  have hc : (strTruthy tc.id && strTruthy (tc.func.bind fun f => f.name)) = true := h
  by_cases hopen : s.contentBlockOpen = true <;> simp [processToolCall, hc, hopen]

/-- Helper: the `input_json_delta` trace of one tool-call loop iteration:
nothing unless the delta carries an argument fragment and its provider
index is registered (after any registration in the same iteration), in
which case exactly one delta is emitted at the registered block index. -/
theorem ptc_jsonDeltas (s : AnthropicStreamState) (tc : StreamToolCall) (b : Nat) :
    jsonDeltasAt b (processToolCall s tc).1 =
      (if isFragD tc = true then
        match lookupTC (processToolCall s tc).2.toolCalls tc.index with
        | some info => if info.anthropicBlockIndex = b then [argOf tc] else []
        | none => []
      else []) := by
  by_cases hreg : (strTruthy tc.id && strTruthy (tc.func.bind fun f => f.name)) = true
  · by_cases hopen : s.contentBlockOpen = true <;>
      · simp only [processToolCall, hreg, hopen, if_true, if_false, Bool.false_eq_true,
          List.cons_append, List.nil_append, isFragD]
        rw [lookupTC_insert_self]
        by_cases hfrag : strTruthy (tc.func.bind fun f => f.arguments) = true <;>
          simp [hfrag, jsonDeltasAt, argOf] <;> split <;> simp_all
  · simp only [processToolCall, hreg, if_false, Bool.false_eq_true, List.nil_append,
      isFragD]
    by_cases hfrag : strTruthy (tc.func.bind fun f => f.arguments) = true
    · cases hlook : lookupTC s.toolCalls tc.index with
      | none => simp [hfrag, hlook, jsonDeltasAt]
      | some info =>
          simp [hfrag, hlook, jsonDeltasAt, argOf]
          split <;> simp_all
    · simp [hfrag, jsonDeltasAt]

/-- Helper: `fragsFor` on a single delta. -/
theorem fragsFor_singleton (i : Nat) (tc : StreamToolCall) :
    fragsFor i [tc]
      = if (tc.index == i && isFragD tc) = true then [argOf tc] else [] := by
  simp only [fragsFor, List.filter_cons, List.filter_nil]
  split <;> simp_all

/-- Helper: `fragsFor` distributes over append. -/
theorem fragsFor_append (i : Nat) (l1 l2 : List StreamToolCall) :
    fragsFor i (l1 ++ l2) = fragsFor i l1 ++ fragsFor i l2 := by
  simp [fragsFor, List.filter_append]

/-- Helper: `jsonDeltasAt` distributes over append. -/
theorem jsonDeltasAt_append (b : Nat) (l1 l2 : List AnthropicStreamEvent) :
    jsonDeltasAt b (l1 ++ l2) = jsonDeltasAt b l1 ++ jsonDeltasAt b l2 := by
  simp [jsonDeltasAt, List.filterMap_append]

/-- Helper: full description of an introducing iteration: the invariant is
preserved, other keys are untouched, the introduced index lands on a block
index that was not previously in use, and used blocks persist. -/
theorem ptc_intro_spec (s : AnthropicStreamState) (tc : StreamToolCall)
    (hInv : StateInv s) (hI : isIntroD tc = true)
    (hFresh : lookupTC s.toolCalls tc.index = none) :
    StateInv (processToolCall s tc).2 ∧
    (∀ j, j ≠ tc.index →
      lookupTC (processToolCall s tc).2.toolCalls j = lookupTC s.toolCalls j) ∧
    (∃ bNew, lookupTC (processToolCall s tc).2.toolCalls tc.index
        = some ⟨tc.id.getD "", (tc.func.bind fun f => f.name).getD "", bNew⟩ ∧
      ¬ BlockUsed s.toolCalls bNew) ∧
    (∀ b, BlockUsed s.toolCalls b → BlockUsed (processToolCall s tc).2.toolCalls b) := by
  obtain ⟨hK, hB, hN⟩ := hInv
  have hkeys : ∀ p ∈ s.toolCalls, p.1 ≠ tc.index := (lookupTC_eq_none_iff _ _).mp hFresh
  have hstate := ptc_intro_state s tc hI
  have hins : insertTC s.toolCalls tc.index
      ⟨tc.id.getD "", (tc.func.bind fun f => f.name).getD "",
       if s.contentBlockOpen = true then s.contentBlockIndex + 1
       else s.contentBlockIndex⟩
      = (tc.index, ⟨tc.id.getD "", (tc.func.bind fun f => f.name).getD "",
         if s.contentBlockOpen = true then s.contentBlockIndex + 1
         else s.contentBlockIndex⟩) :: s.toolCalls := insertTC_fresh _ _ _ hFresh
  have hBNewUnused : ¬ BlockUsed s.toolCalls
      (if s.contentBlockOpen = true then s.contentBlockIndex + 1
       else s.contentBlockIndex) := by
    rintro ⟨p, hp, hpb⟩
    have hb1 := (hB p hp).1
    have hb2 := (hB p hp).2
    by_cases hopen : s.contentBlockOpen = true
    · rw [if_pos hopen] at hpb
      omega
    · rw [if_neg hopen] at hpb
      exact hopen (hb2 hpb)
  refine ⟨?_, ?_, ?_, ?_⟩
  · rw [hstate]
    refine ⟨?_, ?_, ?_⟩
    · simp only [hins, List.map_cons, List.nodup_cons]
      refine ⟨?_, hK⟩
      intro hmem
      obtain ⟨p, hp, hfst⟩ := List.mem_map.mp hmem
      exact hkeys p hp hfst
    · intro p hp
      simp only [hins, List.mem_cons] at hp
      rcases hp with rfl | hp
      · exact ⟨le_refl _, fun _ => rfl⟩
      · have := (hB p hp).1
        refine ⟨?_, fun _ => rfl⟩
        show p.2.anthropicBlockIndex ≤
          (if s.contentBlockOpen = true then s.contentBlockIndex + 1
           else s.contentBlockIndex)
        split <;> omega
    · simp only [hins, List.map_cons, List.nodup_cons]
      refine ⟨?_, hN⟩
      intro hmem
      obtain ⟨p, hp, hpb⟩ := List.mem_map.mp hmem
      exact hBNewUnused ⟨p, hp, hpb⟩
  · intro j hj
    rw [hstate]
    exact lookupTC_insert_ne _ _ _ _ hj
  · refine ⟨_, ?_, hBNewUnused⟩
    rw [hstate]
    exact lookupTC_insert_self _ _ _
  · intro b hb
    rw [hstate]
    obtain ⟨p, hp, hpb⟩ := hb
    exact ⟨p, by simp [hins, hp], hpb⟩

/-- Helper: state evolution facts of one iteration, intro or not. -/
theorem ptc_state_spec (s : AnthropicStreamState) (tc : StreamToolCall)
    (hInv : StateInv s)
    (hNR : isIntroD tc = true → lookupTC s.toolCalls tc.index = none) :
    StateInv (processToolCall s tc).2 ∧
    (∀ j, j ≠ tc.index →
      lookupTC (processToolCall s tc).2.toolCalls j = lookupTC s.toolCalls j) ∧
    (∀ b, BlockUsed s.toolCalls b → BlockUsed (processToolCall s tc).2.toolCalls b) ∧
    (∀ j, lookupTC (processToolCall s tc).2.toolCalls j ≠ none →
      lookupTC s.toolCalls j ≠ none ∨ (isIntroD tc = true ∧ tc.index = j)) := by
  cases hI : isIntroD tc with
  | false =>
      rw [ptc_nonintro_state s tc hI]
      exact ⟨hInv, fun j _ => rfl, fun b hb => hb, fun j hj => Or.inl hj⟩
  | true =>
      obtain ⟨h1, h2, h3, h4⟩ := ptc_intro_spec s tc hInv hI (hNR hI)
      refine ⟨h1, h2, h4, ?_⟩
      intro j hj
      by_cases hji : j = tc.index
      · exact Or.inr ⟨rfl, hji.symm⟩
      · rw [h2 j hji] at hj
        exact Or.inl hj

/-- Helper: one iteration emits no `input_json_delta` at a block index that
is unused after it. -/
theorem ptc_jsonDeltas_unused (s : AnthropicStreamState) (tc : StreamToolCall) (b : Nat)
    (h : ¬ BlockUsed (processToolCall s tc).2.toolCalls b) :
    jsonDeltasAt b (processToolCall s tc).1 = [] := by
  rw [ptc_jsonDeltas]
  split
  · cases hlook : lookupTC (processToolCall s tc).2.toolCalls tc.index with
    | none => rfl
    | some info =>
        have hused := blockUsed_of_lookup _ _ _ hlook
        show (if info.anthropicBlockIndex = b then [argOf tc] else []) = []
        rw [if_neg]
        intro hb
        rw [hb] at hused
        exact h hused
  · rfl

/-- Helper: the `input_json_delta` trace of one iteration at the block of a
previously registered index `i`: exactly the fragment of this delta when it
addresses `i`, nothing otherwise. -/
theorem ptc_trace_spec (s : AnthropicStreamState) (tc : StreamToolCall)
    (i : Nat) (info : ToolCallInfo)
    (hInv : StateInv s) (hLook : lookupTC s.toolCalls i = some info)
    (hNR : isIntroD tc = true → lookupTC s.toolCalls tc.index = none) :
    jsonDeltasAt info.anthropicBlockIndex (processToolCall s tc).1 = fragsFor i [tc] := by
  rw [ptc_jsonDeltas, fragsFor_singleton]
  cases hI : isIntroD tc with
  | true =>
      -- the introduced index is fresh, so it is not i, and its block is new
      have hFresh := hNR hI
      have hne : tc.index ≠ i := by
        intro hji
        rw [hji, hLook] at hFresh
        exact Option.noConfusion hFresh
      obtain ⟨_, _, ⟨bNew, hself, hUnused⟩, _⟩ := ptc_intro_spec s tc hInv hI hFresh
      have hbne : bNew ≠ info.anthropicBlockIndex := by
        intro hb
        exact hUnused (hb ▸ blockUsed_of_lookup _ _ _ hLook)
      cases hfrag : isFragD tc with
      | false => simp [hfrag]
      | true =>
          simp only [hfrag, if_true]
          rw [hself]
          show (if bNew = info.anthropicBlockIndex then [argOf tc] else []) = _
          rw [if_neg hbne]
          have hnei : (tc.index == i) = false := by simp [hne]
          simp [hnei]
  | false =>
      rw [ptc_nonintro_state s tc hI]
      cases hfrag : isFragD tc with
      | false => simp [hfrag]
      | true =>
          simp only [hfrag, if_true, Bool.and_true]
          by_cases hji : tc.index = i
          · rw [hji, hLook]
            simp [hji]
          · cases hlook2 : lookupTC s.toolCalls tc.index with
            | none => simp [hji]
            | some info2 =>
                have hbne := stateInv_blocks_ne s ⟨hInv.1, hInv.2.1, hInv.2.2⟩
                  tc.index i info2 info hlook2 hLook hji
                show (if info2.anthropicBlockIndex = info.anthropicBlockIndex
                    then [argOf tc] else []) = _
                rw [if_neg hbne]
                simp [hji]

/-- Helper: well-formedness of the remaining deltas survives one step. -/
theorem noReintro_step (m m' : List (Nat × ToolCallInfo)) (tc : StreamToolCall)
    (rest : List StreamToolCall)
    (h : NoReintro m (tc :: rest))
    (hgrow : ∀ j, lookupTC m' j ≠ none →
      lookupTC m j ≠ none ∨ (isIntroD tc = true ∧ tc.index = j)) :
    NoReintro m' rest := by
  obtain ⟨h1, h2⟩ := h
  rw [List.pairwise_cons] at h2
  constructor
  · intro tc' htc' hI'
    by_contra hne
    rcases hgrow tc'.index hne with hold | ⟨hItc, hidx⟩
    · exact hold (h1 tc' (by simp [htc']) hI')
    · exact (h2.1 tc' htc' hItc hI') hidx
  · exact h2.2

/-- Helper: trace of the tool-call loop after index `i` has been
registered: the `input_json_delta` events at its block are exactly its
argument fragments in arrival order; the invariant, the registration of
`i`, used blocks and the key-growth bound all carry through. -/
theorem processToolCalls_post_spec (ds : List StreamToolCall) :
    ∀ (s : AnthropicStreamState) (i : Nat) (info : ToolCallInfo),
    StateInv s → lookupTC s.toolCalls i = some info → NoReintro s.toolCalls ds →
    StateInv (processToolCalls ds s).2 ∧
    lookupTC (processToolCalls ds s).2.toolCalls i = some info ∧
    jsonDeltasAt info.anthropicBlockIndex (processToolCalls ds s).1 = fragsFor i ds ∧
    (∀ b, BlockUsed s.toolCalls b → BlockUsed (processToolCalls ds s).2.toolCalls b) ∧
    (∀ j, lookupTC (processToolCalls ds s).2.toolCalls j ≠ none →
      lookupTC s.toolCalls j ≠ none ∨ ∃ tc ∈ ds, isIntroD tc = true ∧ tc.index = j) := by
  induction ds with
  | nil =>
      intro s i info hInv hLook hNR
      exact ⟨hInv, hLook, by simp [processToolCalls, jsonDeltasAt, fragsFor],
        fun b hb => hb, fun j hj => Or.inl hj⟩
  | cons tc rest ih =>
      intro s i info hInv hLook hNR
      have hNRhead : isIntroD tc = true → lookupTC s.toolCalls tc.index = none :=
        fun hI => hNR.1 tc (by simp) hI
      obtain ⟨hs1, hlookpres, hmono1, hgrow1⟩ := ptc_state_spec s tc hInv hNRhead
      have hLook1 : lookupTC (processToolCall s tc).2.toolCalls i = some info := by
        cases hI : isIntroD tc with
        | false => rw [ptc_nonintro_state s tc hI]; exact hLook
        | true =>
            have hFresh := hNRhead hI
            have hne : i ≠ tc.index := by
              intro hji
              rw [← hji, hLook] at hFresh
              exact Option.noConfusion hFresh
            rw [hlookpres i hne]
            exact hLook
      have hNRrest : NoReintro (processToolCall s tc).2.toolCalls rest :=
        noReintro_step _ _ tc rest hNR hgrow1
      obtain ⟨ih1, ih2, ih3, ih4, ih5⟩ :=
        ih (processToolCall s tc).2 i info hs1 hLook1 hNRrest
      refine ⟨ih1, ih2, ?_, ?_, ?_⟩
      · simp only [processToolCalls]
        rw [jsonDeltasAt_append, ih3, ptc_trace_spec s tc i info hInv hLook hNRhead]
        rw [show (tc :: rest) = [tc] ++ rest from rfl, fragsFor_append]
      · intro b hb
        exact ih4 b (hmono1 b hb)
      · intro j hj
        rcases ih5 j hj with hold | ⟨tc', htc', hI', hidx⟩
        · rcases hgrow1 j hold with hg1 | hg2
          · exact Or.inl hg1
          · exact Or.inr ⟨tc, by simp, hg2.1, hg2.2⟩
        · exact Or.inr ⟨tc', by simp [htc'], hI', hidx⟩

/-- Helper: trace of the tool-call loop while index `i` is unregistered and
unaddressed: `i` stays unregistered, and no `input_json_delta` is emitted
at any block index left unused afterwards. -/
theorem processToolCalls_pre_spec (ds : List StreamToolCall) :
    ∀ (s : AnthropicStreamState) (i : Nat),
    StateInv s → lookupTC s.toolCalls i = none → NoReintro s.toolCalls ds →
    (∀ tc ∈ ds, tc.index ≠ i) →
    StateInv (processToolCalls ds s).2 ∧
    lookupTC (processToolCalls ds s).2.toolCalls i = none ∧
    (∀ b, ¬ BlockUsed (processToolCalls ds s).2.toolCalls b →
      jsonDeltasAt b (processToolCalls ds s).1 = []) ∧
    (∀ b, BlockUsed s.toolCalls b → BlockUsed (processToolCalls ds s).2.toolCalls b) ∧
    (∀ j, lookupTC (processToolCalls ds s).2.toolCalls j ≠ none →
      lookupTC s.toolCalls j ≠ none ∨ ∃ tc ∈ ds, isIntroD tc = true ∧ tc.index = j) := by
  induction ds with
  | nil =>
      intro s i hInv hLook hNR hNoi
      exact ⟨hInv, hLook, fun b _ => by simp [processToolCalls, jsonDeltasAt],
        fun b hb => hb, fun j hj => Or.inl hj⟩
  | cons tc rest ih =>
      intro s i hInv hLook hNR hNoi
      have hNRhead : isIntroD tc = true → lookupTC s.toolCalls tc.index = none :=
        fun hI => hNR.1 tc (by simp) hI
      obtain ⟨hs1, hlookpres, hmono1, hgrow1⟩ := ptc_state_spec s tc hInv hNRhead
      have hnei : i ≠ tc.index := fun hji => (hNoi tc (by simp)) hji.symm
      have hLook1 : lookupTC (processToolCall s tc).2.toolCalls i = none := by
        rw [hlookpres i hnei]
        exact hLook
      have hNRrest : NoReintro (processToolCall s tc).2.toolCalls rest :=
        noReintro_step _ _ tc rest hNR hgrow1
      obtain ⟨ih1, ih2, ih3, ih4, ih5⟩ := ih (processToolCall s tc).2 i hs1 hLook1 hNRrest
        (fun tc' htc' => hNoi tc' (by simp [htc']))
      refine ⟨ih1, ih2, ?_, ?_, ?_⟩
      · intro b hb
        simp only [processToolCalls]
        rw [jsonDeltasAt_append]
        have hb1 : ¬ BlockUsed (processToolCall s tc).2.toolCalls b :=
          fun hu => hb (ih4 b hu)
        rw [ptc_jsonDeltas_unused s tc b hb1, ih3 b hb]
        rfl
      · intro b hb
        exact ih4 b (hmono1 b hb)
      · intro j hj
        rcases ih5 j hj with hold | ⟨tc', htc', hI', hidx⟩
        · rcases hgrow1 j hold with hg1 | hg2
          · exact Or.inl hg1
          · exact Or.inr ⟨tc, by simp, hg2.1, hg2.2⟩
        · exact Or.inr ⟨tc', by simp [htc'], hI', hidx⟩

/-- Helper: the tool-call loop splits over appended delta lists. -/
theorem processToolCalls_append (l1 l2 : List StreamToolCall) (s : AnthropicStreamState) :
    processToolCalls (l1 ++ l2) s
      = ((processToolCalls l1 s).1
           ++ (processToolCalls l2 (processToolCalls l1 s).2).1,
         (processToolCalls l2 (processToolCalls l1 s).2).2) := by
  induction l1 generalizing s with
  | nil => simp [processToolCalls]
  | cons tc rest ih => simp [processToolCalls, ih, List.append_assoc]

/-- Helper: no fragments for an unaddressed index. -/
theorem fragsFor_nil_of_no_index (i : Nat) (l : List StreamToolCall)
    (h : ∀ tc ∈ l, tc.index ≠ i) : fragsFor i l = [] := by
  unfold fragsFor
  rw [List.filter_eq_nil_iff.mpr]
  · rfl
  · intro tc htc
    simp [h tc htc]

/-- Helper: full trace of the tool-call loop over a delta list that
introduces index `i` once (after a prefix that never addresses it): `i`
ends registered under the introduced id and name, and the
`input_json_delta` events at its block are exactly the argument fragments
for `i` in arrival order. -/
theorem processToolCalls_intro_spec (dpre dpost : List StreamToolCall)
    (dI : StreamToolCall) (s : AnthropicStreamState) (i : Nat)
    (hInv : StateInv s) (hLook : lookupTC s.toolCalls i = none)
    (hNR : NoReintro s.toolCalls (dpre ++ dI :: dpost))
    (hpre : ∀ tc ∈ dpre, tc.index ≠ i)
    (hI : isIntroD dI = true) (hIdx : dI.index = i) :
    ∃ info : ToolCallInfo,
      lookupTC (processToolCalls (dpre ++ dI :: dpost) s).2.toolCalls i = some info ∧
      info.id = dI.id.getD "" ∧
      info.name = (dI.func.bind fun f => f.name).getD "" ∧
      jsonDeltasAt info.anthropicBlockIndex (processToolCalls (dpre ++ dI :: dpost) s).1
        = fragsFor i (dpre ++ dI :: dpost) ∧
      ¬ BlockUsed s.toolCalls info.anthropicBlockIndex ∧
      StateInv (processToolCalls (dpre ++ dI :: dpost) s).2 ∧
      (∀ j, lookupTC (processToolCalls (dpre ++ dI :: dpost) s).2.toolCalls j ≠ none →
        lookupTC s.toolCalls j ≠ none ∨
          ∃ tc ∈ dpre ++ dI :: dpost, isIntroD tc = true ∧ tc.index = j) := by
  have hNRpre : NoReintro s.toolCalls dpre := by
    refine ⟨fun tc htc hIt => hNR.1 tc (by simp [htc]) hIt, ?_⟩
    exact (List.pairwise_append.mp hNR.2).1
  obtain ⟨p1Inv, p1Look, p1Json, p1Mono, p1Grow⟩ :=
    processToolCalls_pre_spec dpre s i hInv hLook hNRpre hpre
  have hNRtail : NoReintro (processToolCalls dpre s).2.toolCalls (dI :: dpost) := by
    refine ⟨?_, (List.pairwise_append.mp hNR.2).2.1⟩
    intro tc htc hIt
    by_contra hne
    rcases p1Grow tc.index hne with hold | ⟨tc', htc', hI', hidx⟩
    · exact hold (hNR.1 tc (by simp [htc]) hIt)
    · exact ((List.pairwise_append.mp hNR.2).2.2 tc' htc' tc htc hI' hIt) hidx
  have hFreshI : lookupTC (processToolCalls dpre s).2.toolCalls dI.index = none :=
    hNRtail.1 dI (by simp) hI
  obtain ⟨iInv, ilookpres, ⟨bNew, hself, hUnused⟩, iMono⟩ :=
    ptc_intro_spec (processToolCalls dpre s).2 dI p1Inv hI hFreshI
  have iGrow := (ptc_state_spec (processToolCalls dpre s).2 dI p1Inv
    (fun _ => hFreshI)).2.2.2
  have hLook2 : lookupTC (processToolCall (processToolCalls dpre s).2 dI).2.toolCalls i
      = some ⟨dI.id.getD "", (dI.func.bind fun f => f.name).getD "", bNew⟩ := by
    rw [← hIdx]
    exact hself
  have hNRpost : NoReintro
      (processToolCall (processToolCalls dpre s).2 dI).2.toolCalls dpost :=
    noReintro_step _ _ dI dpost hNRtail iGrow
  obtain ⟨postInv, postLook, postJson, postMono, postGrow⟩ :=
    processToolCalls_post_spec dpost
      (processToolCall (processToolCalls dpre s).2 dI).2 i
      ⟨dI.id.getD "", (dI.func.bind fun f => f.name).getD "", bNew⟩
      iInv hLook2 hNRpost
  have hsplit := processToolCalls_append dpre (dI :: dpost) s
  have hHeadJson : jsonDeltasAt bNew (processToolCall (processToolCalls dpre s).2 dI).1
      = fragsFor i [dI] := by
    rw [ptc_jsonDeltas, fragsFor_singleton]
    cases hfrag : isFragD dI with
    | false => simp [hfrag]
    | true =>
        simp only [hfrag, if_true, Bool.and_true]
        rw [hself]
        show (if bNew = bNew then [argOf dI] else []) = _
        rw [if_pos rfl]
        have : (dI.index == i) = true := by simp [hIdx]
        simp [this]
  refine ⟨⟨dI.id.getD "", (dI.func.bind fun f => f.name).getD "", bNew⟩,
    ?_, rfl, rfl, ?_, fun hu => hUnused (p1Mono bNew hu), ?_, ?_⟩
  · rw [hsplit]
    simp only [processToolCalls]
    exact postLook
  · rw [hsplit]
    simp only [processToolCalls]
    show jsonDeltasAt bNew ((processToolCalls dpre s).1 ++ _) = _
    rw [jsonDeltasAt_append, jsonDeltasAt_append]
    rw [p1Json bNew hUnused, hHeadJson]
    have hpostJson : jsonDeltasAt bNew
        (processToolCalls dpost
          (processToolCall (processToolCalls dpre s).2 dI).2).1 = fragsFor i dpost :=
      postJson
    rw [hpostJson]
    rw [show dpre ++ dI :: dpost = dpre ++ ([dI] ++ dpost) from by simp]
    rw [fragsFor_append, fragsFor_append, fragsFor_nil_of_no_index i dpre hpre]
  · rw [hsplit]
    simp only [processToolCalls]
    exact postInv
  · intro j hj
    rw [hsplit] at hj
    simp only [processToolCalls] at hj
    rcases postGrow j hj with h2 | ⟨tc', htc', hI', hidx⟩
    · rcases iGrow j h2 with h3 | h4
      · rcases p1Grow j h3 with h5 | ⟨tc', htc', hI', hidx⟩
        · exact Or.inl h5
        · exact Or.inr ⟨tc', by simp [htc'], hI', hidx⟩
      · exact Or.inr ⟨dI, by simp, h4.1, h4.2⟩
    · exact Or.inr ⟨tc', by simp [htc'], hI', hidx⟩

/-- Helper: the message-start section emits no `input_json_delta`. -/
theorem jsonDeltasAt_msgStartPhase (c : ChatCompletionChunk) (s : AnthropicStreamState)
    (b : Nat) : jsonDeltasAt b (msgStartPhase c s).1 = [] := by
  by_cases h : s.messageStartSent <;> simp [msgStartPhase, h, jsonDeltasAt]

/-- Helper: the text section emits no `input_json_delta`. -/
theorem jsonDeltasAt_textPhase (content : Option String) (s : AnthropicStreamState)
    (b : Nat) : jsonDeltasAt b (textPhase content s).1 = [] := by
  cases content with
  | none => simp [textPhase, jsonDeltasAt]
  | some txt =>
      by_cases h1 : txt = "" <;> by_cases h2 : isToolBlockOpen s = true <;>
        by_cases h3 : s.contentBlockOpen = true <;>
          simp [textPhase, h1, h2, h3, jsonDeltasAt]

/-- Helper: the finish section emits no `input_json_delta`. -/
theorem jsonDeltasAt_finishPhase (fr : Option String) (u : Option UsageInfo)
    (s : AnthropicStreamState) (b : Nat) :
    jsonDeltasAt b (finishPhase fr u s).1 = [] := by
  by_cases h1 : strTruthy fr = true <;> by_cases h2 : s.contentBlockOpen = true <;>
    simp [finishPhase, h1, h2, jsonDeltasAt]

/-- Helper: the tool section is the tool-call loop over the extracted
deltas. -/
theorem toolPhase_eq (tcs : Option (List StreamToolCall)) (s : AnthropicStreamState) :
    toolPhase tcs s = processToolCalls (tcs.getD []) s := by
  cases tcs <;> rfl

/-- Helper: under a missing finish reason, one chunk is, up to wrapper
events that carry no `input_json_delta` and leave the registration map
untouched, exactly the tool-call loop on the extracted deltas run from an
intermediate state with the same registrations. -/
theorem translateChunk_decomp (c : ChatCompletionChunk) (s : AnthropicStreamState)
    (hNF : noFinishChunk c = true) :
    ∃ s2 : AnthropicStreamState,
      s2.toolCalls = s.toolCalls ∧
      (StateInv s → StateInv s2) ∧
      (translateChunkToAnthropicEvents c s).2
        = (processToolCalls (toolDeltasOfChunk c) s2).2 ∧
      (∀ b, jsonDeltasAt b (translateChunkToAnthropicEvents c s).1
        = jsonDeltasAt b (processToolCalls (toolDeltasOfChunk c) s2).1) := by
  cases hc : c.choices with
  | nil =>
      refine ⟨s, rfl, fun h => h, ?_, ?_⟩
      · simp [translateChunkToAnthropicEvents, hc, toolDeltasOfChunk, processToolCalls]
      · intro b
        simp [translateChunkToAnthropicEvents, hc, toolDeltasOfChunk, processToolCalls,
          jsonDeltasAt]
  | cons choice rest =>
      have hfr : strTruthy choice.finishReason = false := by
        have hx := hNF
        unfold noFinishChunk at hx
        rw [hc] at hx
        simpa using hx
      refine ⟨(textPhase (choice.delta.bind fun d => d.content) (msgStartPhase c s).2).2,
        ?_, ?_, ?_, ?_⟩
      · rw [(textPhase_facts _ _).2, (msgStartPhase_facts c s).2.2.1]
      · intro h
        exact stateInv_textPhase _ _ (stateInv_msgStartPhase c s h)
      · simp only [translateChunkToAnthropicEvents, hc]
        rw [finishPhase_noop _ _ _ hfr]
        rw [toolPhase_eq]
        have : toolDeltasOfChunk c = ((choice.delta.bind fun d => d.toolCalls).getD []) := by
          unfold toolDeltasOfChunk
          rw [hc]
        rw [this]
      · intro b
        simp only [translateChunkToAnthropicEvents, hc]
        rw [finishPhase_noop _ _ _ hfr]
        simp only [List.append_nil]
        rw [jsonDeltasAt_append, jsonDeltasAt_append,
          jsonDeltasAt_msgStartPhase, jsonDeltasAt_textPhase]
        rw [toolPhase_eq]
        have : toolDeltasOfChunk c = ((choice.delta.bind fun d => d.toolCalls).getD []) := by
          unfold toolDeltasOfChunk
          rw [hc]
        rw [this]
        rfl

/-- Helper: well-formedness restricts to a prefix. -/
theorem noReintro_append_left (m : List (Nat × ToolCallInfo))
    (l1 l2 : List StreamToolCall) (h : NoReintro m (l1 ++ l2)) : NoReintro m l1 :=
  ⟨fun tc htc hIt => h.1 tc (by simp [htc]) hIt, (List.pairwise_append.mp h.2).1⟩

/-- Helper: well-formedness of a suffix survives processing the prefix. -/
theorem noReintro_append_split (m m' : List (Nat × ToolCallInfo))
    (l1 l2 : List StreamToolCall) (h : NoReintro m (l1 ++ l2))
    (hgrow : ∀ j, lookupTC m' j ≠ none →
      lookupTC m j ≠ none ∨ ∃ tc ∈ l1, isIntroD tc = true ∧ tc.index = j) :
    NoReintro m' l2 := by
  obtain ⟨h1, h2⟩ := h
  obtain ⟨hp1, hp2, hrel⟩ := List.pairwise_append.mp h2
  refine ⟨?_, hp2⟩
  intro tc htc hIt
  by_contra hne
  rcases hgrow tc.index hne with hold | ⟨tc', htc', hI', hidx⟩
  · exact hold (h1 tc (by simp [htc]) hIt)
  · exact (hrel tc' htc' tc htc hI' hIt) hidx

/-- Helper: tool deltas of a chunk sequence split at the head. -/
theorem toolDeltasOf_cons (c : ChatCompletionChunk) (rest : List ChatCompletionChunk) :
    toolDeltasOf (c :: rest) = toolDeltasOfChunk c ++ toolDeltasOf rest := by
  simp [toolDeltasOf]

/-- Helper: trace of a chunk sequence while index `i` is unregistered and
unaddressed (no chunk carries a finish reason). -/
theorem chunks_pre_spec (cs : List ChatCompletionChunk) :
    ∀ (s : AnthropicStreamState) (i : Nat),
    StateInv s → lookupTC s.toolCalls i = none →
    (∀ c ∈ cs, noFinishChunk c = true) →
    NoReintro s.toolCalls (toolDeltasOf cs) →
    (∀ tc ∈ toolDeltasOf cs, tc.index ≠ i) →
    StateInv (processChunks cs s).2 ∧
    lookupTC (processChunks cs s).2.toolCalls i = none ∧
    (∀ b, ¬ BlockUsed (processChunks cs s).2.toolCalls b →
      jsonDeltasAt b (processChunks cs s).1 = []) ∧
    (∀ b, BlockUsed s.toolCalls b → BlockUsed (processChunks cs s).2.toolCalls b) ∧
    (∀ j, lookupTC (processChunks cs s).2.toolCalls j ≠ none →
      lookupTC s.toolCalls j ≠ none ∨
        ∃ tc ∈ toolDeltasOf cs, isIntroD tc = true ∧ tc.index = j) := by
  induction cs with
  | nil =>
      intro s i hInv hLook _ _ _
      exact ⟨hInv, hLook, fun b _ => by simp [processChunks, jsonDeltasAt],
        fun b hb => hb, fun j hj => Or.inl hj⟩
  | cons c rest ih =>
      intro s i hInv hLook hNF hNR hNoi
      rw [toolDeltasOf_cons] at hNR hNoi
      obtain ⟨s2, hmap2, hInvf, hstate, hjson⟩ :=
        translateChunk_decomp c s (hNF c (by simp))
      have hInv2 : StateInv s2 := hInvf hInv
      have hLook2 : lookupTC s2.toolCalls i = none := by rw [hmap2]; exact hLook
      have hNR2 : NoReintro s2.toolCalls (toolDeltasOfChunk c) := by
        rw [hmap2]
        exact noReintro_append_left _ _ _ hNR
      obtain ⟨q1, q2, q3, q4, q5⟩ := processToolCalls_pre_spec (toolDeltasOfChunk c) s2 i
        hInv2 hLook2 hNR2 (fun tc htc => hNoi tc (by simp [htc]))
      have hNRrest : NoReintro (translateChunkToAnthropicEvents c s).2.toolCalls
          (toolDeltasOf rest) := by
        rw [hstate]
        refine noReintro_append_split s.toolCalls _ _ _ hNR ?_
        intro j hj
        rcases q5 j hj with hold | hex
        · rw [hmap2] at hold
          exact Or.inl hold
        · exact Or.inr hex
      have hInvC : StateInv (translateChunkToAnthropicEvents c s).2 := by
        rw [hstate]; exact q1
      have hLookC : lookupTC (translateChunkToAnthropicEvents c s).2.toolCalls i = none := by
        rw [hstate]; exact q2
      obtain ⟨r1, r2, r3, r4, r5⟩ := ih (translateChunkToAnthropicEvents c s).2 i hInvC
        hLookC (fun c' hc' => hNF c' (by simp [hc'])) hNRrest
        (fun tc htc => hNoi tc (by simp [htc]))
      refine ⟨r1, r2, ?_, ?_, ?_⟩
      · intro b hb
        simp only [processChunks]
        rw [jsonDeltasAt_append]
        have hbC2 : ¬ BlockUsed (processToolCalls (toolDeltasOfChunk c) s2).2.toolCalls b := by
          rw [← hstate]
          exact fun hu => hb (r4 b hu)
        rw [hjson b, q3 b hbC2, r3 b hb]
        rfl
      · intro b hb
        apply r4
        rw [hstate]
        apply q4
        rw [hmap2]
        exact hb
      · intro j hj
        rcases r5 j hj with hold | hex
        · rw [hstate] at hold
          rcases q5 j hold with h5 | hex2
          · rw [hmap2] at h5
            exact Or.inl h5
          · obtain ⟨tc, htc, hx⟩ := hex2
            exact Or.inr ⟨tc, by rw [toolDeltasOf_cons]; simp [htc], hx⟩
        · obtain ⟨tc, htc, hx⟩ := hex
          exact Or.inr ⟨tc, by rw [toolDeltasOf_cons]; simp [htc], hx⟩

/-- Helper: trace of a chunk sequence after index `i` has been registered
(no chunk carries a finish reason). -/
theorem chunks_post_spec (cs : List ChatCompletionChunk) :
    ∀ (s : AnthropicStreamState) (i : Nat) (info : ToolCallInfo),
    StateInv s → lookupTC s.toolCalls i = some info →
    (∀ c ∈ cs, noFinishChunk c = true) →
    NoReintro s.toolCalls (toolDeltasOf cs) →
    StateInv (processChunks cs s).2 ∧
    lookupTC (processChunks cs s).2.toolCalls i = some info ∧
    jsonDeltasAt info.anthropicBlockIndex (processChunks cs s).1
      = fragsFor i (toolDeltasOf cs) ∧
    (∀ b, BlockUsed s.toolCalls b → BlockUsed (processChunks cs s).2.toolCalls b) ∧
    (∀ j, lookupTC (processChunks cs s).2.toolCalls j ≠ none →
      lookupTC s.toolCalls j ≠ none ∨
        ∃ tc ∈ toolDeltasOf cs, isIntroD tc = true ∧ tc.index = j) := by
  induction cs with
  | nil =>
      intro s i info hInv hLook _ _
      exact ⟨hInv, hLook, by simp [processChunks, jsonDeltasAt, toolDeltasOf, fragsFor],
        fun b hb => hb, fun j hj => Or.inl hj⟩
  | cons c rest ih =>
      intro s i info hInv hLook hNF hNR
      rw [toolDeltasOf_cons] at hNR
      obtain ⟨s2, hmap2, hInvf, hstate, hjson⟩ :=
        translateChunk_decomp c s (hNF c (by simp))
      have hInv2 : StateInv s2 := hInvf hInv
      have hLook2 : lookupTC s2.toolCalls i = some info := by rw [hmap2]; exact hLook
      have hNR2 : NoReintro s2.toolCalls (toolDeltasOfChunk c) := by
        rw [hmap2]
        exact noReintro_append_left _ _ _ hNR
      obtain ⟨q1, q2, q3, q4, q5⟩ := processToolCalls_post_spec (toolDeltasOfChunk c) s2 i
        info hInv2 hLook2 hNR2
      have hNRrest : NoReintro (translateChunkToAnthropicEvents c s).2.toolCalls
          (toolDeltasOf rest) := by
        rw [hstate]
        refine noReintro_append_split s.toolCalls _ _ _ hNR ?_
        intro j hj
        rcases q5 j hj with hold | hex
        · rw [hmap2] at hold
          exact Or.inl hold
        · exact Or.inr hex
      have hInvC : StateInv (translateChunkToAnthropicEvents c s).2 := by
        rw [hstate]; exact q1
      have hLookC : lookupTC (translateChunkToAnthropicEvents c s).2.toolCalls i
          = some info := by
        rw [hstate]; exact q2
      obtain ⟨r1, r2, r3, r4, r5⟩ := ih (translateChunkToAnthropicEvents c s).2 i info
        hInvC hLookC (fun c' hc' => hNF c' (by simp [hc'])) hNRrest
      refine ⟨r1, r2, ?_, ?_, ?_⟩
      · simp only [processChunks]
        rw [jsonDeltasAt_append, hjson _, q3, r3, toolDeltasOf_cons, fragsFor_append]
      · intro b hb
        apply r4
        rw [hstate]
        apply q4
        rw [hmap2]
        exact hb
      · intro j hj
        rcases r5 j hj with hold | hex
        · rw [hstate] at hold
          rcases q5 j hold with h5 | hex2
          · rw [hmap2] at h5
            exact Or.inl h5
          · obtain ⟨tc, htc, hx⟩ := hex2
            exact Or.inr ⟨tc, by rw [toolDeltasOf_cons]; simp [htc], hx⟩
        · obtain ⟨tc, htc, hx⟩ := hex
          exact Or.inr ⟨tc, by rw [toolDeltasOf_cons]; simp [htc], hx⟩

/-- Helper: trace of the one chunk that introduces index `i`. -/
theorem chunk_intro_spec (c : ChatCompletionChunk) (s : AnthropicStreamState) (i : Nat)
    (dpre dpost : List StreamToolCall) (dI : StreamToolCall)
    (hNF : noFinishChunk c = true)
    (hsplit : toolDeltasOfChunk c = dpre ++ dI :: dpost)
    (hInv : StateInv s) (hLook : lookupTC s.toolCalls i = none)
    (hNR : NoReintro s.toolCalls (toolDeltasOfChunk c))
    (hpre : ∀ tc ∈ dpre, tc.index ≠ i)
    (hI : isIntroD dI = true) (hIdx : dI.index = i) :
    ∃ info : ToolCallInfo,
      lookupTC (translateChunkToAnthropicEvents c s).2.toolCalls i = some info ∧
      info.id = dI.id.getD "" ∧
      info.name = (dI.func.bind fun f => f.name).getD "" ∧
      jsonDeltasAt info.anthropicBlockIndex (translateChunkToAnthropicEvents c s).1
        = fragsFor i (toolDeltasOfChunk c) ∧
      ¬ BlockUsed s.toolCalls info.anthropicBlockIndex ∧
      StateInv (translateChunkToAnthropicEvents c s).2 ∧
      (∀ j, lookupTC (translateChunkToAnthropicEvents c s).2.toolCalls j ≠ none →
        lookupTC s.toolCalls j ≠ none ∨
          ∃ tc ∈ toolDeltasOfChunk c, isIntroD tc = true ∧ tc.index = j) := by
  obtain ⟨s2, hmap2, hInvf, hstate, hjson⟩ := translateChunk_decomp c s hNF
  have hInv2 : StateInv s2 := hInvf hInv
  have hLook2 : lookupTC s2.toolCalls i = none := by rw [hmap2]; exact hLook
  have hNR2 : NoReintro s2.toolCalls (dpre ++ dI :: dpost) := by
    rw [hmap2, ← hsplit]
    exact hNR
  obtain ⟨info, q1, q2, q3, q4, q5, q6, q7⟩ :=
    processToolCalls_intro_spec dpre dpost dI s2 i hInv2 hLook2 hNR2 hpre hI hIdx
  refine ⟨info, ?_, q2, q3, ?_, ?_, ?_, ?_⟩
  · rw [hstate, hsplit]
    exact q1
  · rw [hjson, hsplit]
    exact q4
  · rw [← hmap2]
    exact q5
  · rw [hstate, hsplit]
    exact q6
  · intro j hj
    rw [hstate, hsplit] at hj
    rcases q7 j hj with hold | hex
    · rw [hmap2] at hold
      exact Or.inl hold
    · obtain ⟨tc, htc, hx⟩ := hex
      exact Or.inr ⟨tc, by rw [hsplit]; exact htc, hx⟩

/-- Helper: chunk processing splits over appended chunk lists. -/
theorem processChunks_append (l1 l2 : List ChatCompletionChunk) (s : AnthropicStreamState) :
    processChunks (l1 ++ l2) s
      = ((processChunks l1 s).1 ++ (processChunks l2 (processChunks l1 s).2).1,
         (processChunks l2 (processChunks l1 s).2).2) := by
  induction l1 generalizing s with
  | nil => simp [processChunks]
  | cons c rest ih => simp [processChunks, ih, List.append_assoc]

/-- Helper: tool deltas split over appended chunk lists. -/
theorem toolDeltasOf_append (l1 l2 : List ChatCompletionChunk) :
    toolDeltasOf (l1 ++ l2) = toolDeltasOf l1 ++ toolDeltasOf l2 := by
  simp [toolDeltasOf]

/-- Helper: a chunk with no tool deltas emits no `input_json_delta`. -/
theorem jsonDeltasAt_chunk_no_tool (c : ChatCompletionChunk) (s : AnthropicStreamState)
    (b : Nat) (h : toolDeltasOfChunk c = []) :
    jsonDeltasAt b (translateChunkToAnthropicEvents c s).1 = [] := by
  cases hc : c.choices with
  | nil => simp [translateChunkToAnthropicEvents, hc, jsonDeltasAt]
  | cons choice rest =>
      have hds : (choice.delta.bind fun d => d.toolCalls).getD [] = [] := by
        have hx := h
        unfold toolDeltasOfChunk at hx
        rw [hc] at hx
        exact hx
      simp only [translateChunkToAnthropicEvents, hc, List.append_assoc]
      rw [jsonDeltasAt_append, jsonDeltasAt_append, jsonDeltasAt_append]
      rw [jsonDeltasAt_msgStartPhase, jsonDeltasAt_textPhase, jsonDeltasAt_finishPhase]
      rw [toolPhase_eq, hds]
      rfl

/-- Helper: a chunk with no tool deltas leaves the registration map
unchanged. -/
theorem chunk_no_tool_map (c : ChatCompletionChunk) (s : AnthropicStreamState)
    (h : toolDeltasOfChunk c = []) :
    (translateChunkToAnthropicEvents c s).2.toolCalls = s.toolCalls := by
  cases hc : c.choices with
  | nil => simp [translateChunkToAnthropicEvents, hc]
  | cons choice rest =>
      have hds : (choice.delta.bind fun d => d.toolCalls).getD [] = [] := by
        have hx := h
        unfold toolDeltasOfChunk at hx
        rw [hc] at hx
        exact hx
      simp only [translateChunkToAnthropicEvents, hc]
      rw [(finishPhase_facts _ _ _).2.1]
      rw [toolPhase_eq, hds]
      show (textPhase _ (msgStartPhase c s).2).2.toolCalls = s.toolCalls
      rw [(textPhase_facts _ _).2, (msgStartPhase_facts c s).2.2.1]

/-- Helper: a run of chunks with no tool deltas emits no
`input_json_delta` and leaves the registration map unchanged. -/
theorem chunks_no_tool_spec (cs : List ChatCompletionChunk) :
    ∀ (s : AnthropicStreamState) (b : Nat), (∀ c ∈ cs, toolDeltasOfChunk c = []) →
    jsonDeltasAt b (processChunks cs s).1 = [] ∧
    (processChunks cs s).2.toolCalls = s.toolCalls := by
  induction cs with
  | nil => intro s b _; exact ⟨by simp [processChunks, jsonDeltasAt], rfl⟩
  | cons c rest ih =>
      intro s b hall
      have hc := hall c (by simp)
      obtain ⟨ih1, ih2⟩ := ih (translateChunkToAnthropicEvents c s).2 b
        (fun c' hc' => hall c' (by simp [hc']))
      constructor
      · simp only [processChunks]
        rw [jsonDeltasAt_append, jsonDeltasAt_chunk_no_tool c s b hc, ih1]
        rfl
      · simp only [processChunks]
        rw [ih2, chunk_no_tool_map c s hc]

/-- C4: tool-call argument reconstruction.  For a finite chunk sequence
whose tool deltas introduce provider tool index `i` exactly once — no
chunk before the introducing one addresses `i`, no two introductions share
an index, the introduction precedes the fragments of `i` within its chunk,
and chunks carrying a finish reason form a tool-delta-free tail — the
streaming translator registers `i` under the introduced id and name at a
dedicated content-block index, and the `input_json_delta` events emitted at
that block index are exactly the argument fragments for `i` in arrival
order.  Consequently their concatenation equals the argument string of the
same logical call, so any JSON parse of the concatenation equals the parse
of the `input` object the non-streaming `TranslateToAnthropic` produces for
a response carrying that call — whose tool_use block (id, name, raw
arguments) the non-streaming translation indeed contains. -/
theorem tool_call_argument_reconstruction
    (preC postC tail : List ChatCompletionChunk) (cI : ChatCompletionChunk)
    (dpre dpost : List StreamToolCall) (dI : StreamToolCall) (i : Nat)
    (hsplit : toolDeltasOfChunk cI = dpre ++ dI :: dpost)
    (hNFpre : ∀ c ∈ preC, noFinishChunk c = true)
    (hNFI : noFinishChunk cI = true)
    (hNFpost : ∀ c ∈ postC, noFinishChunk c = true)
    (hPW : (toolDeltasOf (preC ++ cI :: postC)).Pairwise
        (fun a b => isIntroD a = true → isIntroD b = true → a.index ≠ b.index))
    (hpreC : ∀ tc ∈ toolDeltasOf preC, tc.index ≠ i)
    (hdpre : ∀ tc ∈ dpre, tc.index ≠ i)
    (hI : isIntroD dI = true) (hIdx : dI.index = i)
    (htail : ∀ c ∈ tail, toolDeltasOfChunk c = []) :
    ∃ info : ToolCallInfo,
      lookupTC (processChunks ((preC ++ cI :: postC) ++ tail)
          initialStreamState).2.toolCalls i = some info ∧
      info.id = dI.id.getD "" ∧
      info.name = (dI.func.bind fun f => f.name).getD "" ∧
      jsonDeltasAt info.anthropicBlockIndex
          (processChunks ((preC ++ cI :: postC) ++ tail) initialStreamState).1
        = fragsFor i (toolDeltasOf (preC ++ cI :: postC)) ∧
      (∀ (resp : ChatCompletionResponseE) (choice : ChoiceE)
          (l : List ToolCallE) (rtc : ToolCallE),
        choice ∈ resp.choices → choice.message.toolCalls = some l → rtc ∈ l →
        rtc.func.arguments
          = String.join (fragsFor i (toolDeltasOf (preC ++ cI :: postC))) →
        ARespBlock.toolUse rtc.id rtc.func.name rtc.func.arguments
            ∈ (translateToAnthropicCS resp).content ∧
        ∀ (α : Type) (parse : String → α),
          parse (String.join (jsonDeltasAt info.anthropicBlockIndex
            (processChunks ((preC ++ cI :: postC) ++ tail) initialStreamState).1))
            = parse rtc.func.arguments) := by
  have hInv0 : StateInv initialStreamState :=
    ⟨by simp [initialStreamState], by simp [initialStreamState],
     by simp [initialStreamState]⟩
  have hLook0 : lookupTC initialStreamState.toolCalls i = none := rfl
  have hNRall : NoReintro initialStreamState.toolCalls
      (toolDeltasOf (preC ++ cI :: postC)) := ⟨fun _ _ _ => rfl, hPW⟩
  have hbd : toolDeltasOf (preC ++ cI :: postC)
      = toolDeltasOf preC ++ (toolDeltasOfChunk cI ++ toolDeltasOf postC) := by
    rw [toolDeltasOf_append, toolDeltasOf_cons]
  have hNRpre : NoReintro initialStreamState.toolCalls (toolDeltasOf preC) := by
    apply noReintro_append_left _ _ (toolDeltasOfChunk cI ++ toolDeltasOf postC)
    rw [← hbd]
    exact hNRall
  obtain ⟨p1, p2, p3, p4, p5⟩ := chunks_pre_spec preC initialStreamState i hInv0 hLook0
    hNFpre hNRpre hpreC
  have hNRrest : NoReintro (processChunks preC initialStreamState).2.toolCalls
      (toolDeltasOfChunk cI ++ toolDeltasOf postC) := by
    refine noReintro_append_split initialStreamState.toolCalls _ (toolDeltasOf preC) _
      ?_ p5
    rw [← hbd]
    exact hNRall
  have hNRcI : NoReintro (processChunks preC initialStreamState).2.toolCalls
      (toolDeltasOfChunk cI) := noReintro_append_left _ _ _ hNRrest
  obtain ⟨info, c1, c2, c3, c4, c5, c6, c7⟩ := chunk_intro_spec cI
    (processChunks preC initialStreamState).2 i dpre dpost dI hNFI hsplit p1 p2 hNRcI
    hdpre hI hIdx
  have hNRpost : NoReintro
      (translateChunkToAnthropicEvents cI
        (processChunks preC initialStreamState).2).2.toolCalls
      (toolDeltasOf postC) :=
    noReintro_append_split (processChunks preC initialStreamState).2.toolCalls _
      (toolDeltasOfChunk cI) _ hNRrest c7
  obtain ⟨q1, q2, q3, q4, q5⟩ := chunks_post_spec postC
    (translateChunkToAnthropicEvents cI (processChunks preC initialStreamState).2).2
    i info c6 c1 hNFpost hNRpost
  obtain ⟨t1, t2⟩ := chunks_no_tool_spec tail
    (processChunks postC (translateChunkToAnthropicEvents cI
      (processChunks preC initialStreamState).2).2).2 info.anthropicBlockIndex htail
  have hdecompEvs : (processChunks ((preC ++ cI :: postC) ++ tail)
      initialStreamState).1
      = (processChunks (preC ++ cI :: postC) initialStreamState).1
        ++ (processChunks tail
            (processChunks (preC ++ cI :: postC) initialStreamState).2).1 := by
    rw [processChunks_append]
  have hdecompState : (processChunks ((preC ++ cI :: postC) ++ tail)
      initialStreamState).2
      = (processChunks tail
          (processChunks (preC ++ cI :: postC) initialStreamState).2).2 := by
    rw [processChunks_append]
  have hbodyEvs : (processChunks (preC ++ cI :: postC) initialStreamState).1
      = (processChunks preC initialStreamState).1
        ++ ((translateChunkToAnthropicEvents cI
              (processChunks preC initialStreamState).2).1
            ++ (processChunks postC (translateChunkToAnthropicEvents cI
                (processChunks preC initialStreamState).2).2).1) := by
    rw [processChunks_append]
    simp only [processChunks]
  have hbodyState : (processChunks (preC ++ cI :: postC) initialStreamState).2
      = (processChunks postC (translateChunkToAnthropicEvents cI
          (processChunks preC initialStreamState).2).2).2 := by
    rw [processChunks_append]
    simp only [processChunks]
  have hfrags : fragsFor i (toolDeltasOf (preC ++ cI :: postC))
      = fragsFor i (toolDeltasOfChunk cI) ++ fragsFor i (toolDeltasOf postC) := by
    rw [hbd, fragsFor_append, fragsFor_append,
      fragsFor_nil_of_no_index i (toolDeltasOf preC) hpreC]
    rfl
  have hjsonFull : jsonDeltasAt info.anthropicBlockIndex
      (processChunks ((preC ++ cI :: postC) ++ tail) initialStreamState).1
      = fragsFor i (toolDeltasOf (preC ++ cI :: postC)) := by
    rw [hdecompEvs, jsonDeltasAt_append, hbodyEvs, jsonDeltasAt_append,
      jsonDeltasAt_append]
    rw [p3 info.anthropicBlockIndex c5, c4, q3, hbodyState, t1, hfrags]
    simp
  have hlookupFull : lookupTC (processChunks ((preC ++ cI :: postC) ++ tail)
      initialStreamState).2.toolCalls i = some info := by
    rw [hdecompState, hbodyState, t2]
    exact q2
  refine ⟨info, hlookupFull, c2, c3, hjsonFull, ?_⟩
  intro resp choice l rtc hchoice htc hrtc hargs
  constructor
  · unfold translateToAnthropicCS
    simp only [List.mem_append]
    right
    rw [List.mem_flatMap]
    refine ⟨choice, hchoice, ?_⟩
    rw [htc]
    simp only [Option.getD_some, List.mem_map]
    exact ⟨rtc, hrtc, rfl⟩
  · intro α parse
    rw [hjsonFull, ← hargs]

/-- C4 witness: the reconstruction applied to a concrete stream — one chunk
introducing tool index 0 (id `call_1`, name `get_weather`) with a first
argument fragment and a second fragment delta, followed by a finish chunk —
against the non-streaming translation of the corresponding completed
response. -/
theorem tool_call_argument_reconstruction_witness :
    ∃ info : ToolCallInfo,
      lookupTC (processChunks
          [(⟨"id1", "mod",
              [⟨some ⟨none, some [⟨0, some "call_1",
                    some ⟨some "get_weather", some "\x7b\"ci"⟩⟩,
                  ⟨0, none, some ⟨none, some "ty\":1\x7d"⟩⟩]⟩, none⟩],
              none⟩ : ChatCompletionChunk),
           ⟨"id1", "mod", [⟨none, some "tool_calls"⟩], none⟩]
          initialStreamState).2.toolCalls 0 = some info ∧
      info.id = "call_1" ∧ info.name = "get_weather" ∧
      jsonDeltasAt info.anthropicBlockIndex
          (processChunks
            [(⟨"id1", "mod",
                [⟨some ⟨none, some [⟨0, some "call_1",
                      some ⟨some "get_weather", some "\x7b\"ci"⟩⟩,
                    ⟨0, none, some ⟨none, some "ty\":1\x7d"⟩⟩]⟩, none⟩],
                none⟩ : ChatCompletionChunk),
             ⟨"id1", "mod", [⟨none, some "tool_calls"⟩], none⟩]
            initialStreamState).1
        = ["\x7b\"ci", "ty\":1\x7d"] ∧
      ARespBlock.toolUse "call_1" "get_weather" "\x7b\"city\":1\x7d"
        ∈ (translateToAnthropicCS
            ⟨"r1", "mod",
             [⟨0, ⟨none, some [⟨"call_1", ⟨"get_weather", "\x7b\"city\":1\x7d"⟩⟩]⟩,
                some "tool_calls"⟩], none⟩).content ∧
      String.join (jsonDeltasAt info.anthropicBlockIndex
          (processChunks
            [(⟨"id1", "mod",
                [⟨some ⟨none, some [⟨0, some "call_1",
                      some ⟨some "get_weather", some "\x7b\"ci"⟩⟩,
                    ⟨0, none, some ⟨none, some "ty\":1\x7d"⟩⟩]⟩, none⟩],
                none⟩ : ChatCompletionChunk),
             ⟨"id1", "mod", [⟨none, some "tool_calls"⟩], none⟩]
            initialStreamState).1)
        = "\x7b\"city\":1\x7d" := by
  obtain ⟨info, h1, h2, h3, h4, h5⟩ := tool_call_argument_reconstruction
    [] []
    [⟨"id1", "mod", [⟨none, some "tool_calls"⟩], none⟩]
    (⟨"id1", "mod",
      [⟨some ⟨none, some [⟨0, some "call_1",
            some ⟨some "get_weather", some "\x7b\"ci"⟩⟩,
          ⟨0, none, some ⟨none, some "ty\":1\x7d"⟩⟩]⟩, none⟩],
      none⟩ : ChatCompletionChunk)
    []
    [⟨0, none, some ⟨none, some "ty\":1\x7d"⟩⟩]
    ⟨0, some "call_1", some ⟨some "get_weather", some "\x7b\"ci"⟩⟩
    0 rfl (by simp) (by decide) (by simp) (by decide) (by simp [toolDeltasOf])
    (by simp) (by decide) rfl (by decide)
  obtain ⟨hmem, hparse⟩ := h5
    ⟨"r1", "mod",
     [⟨0, ⟨none, some [⟨"call_1", ⟨"get_weather", "\x7b\"city\":1\x7d"⟩⟩]⟩,
        some "tool_calls"⟩], none⟩
    ⟨0, ⟨none, some [⟨"call_1", ⟨"get_weather", "\x7b\"city\":1\x7d"⟩⟩]⟩,
      some "tool_calls"⟩
    [⟨"call_1", ⟨"get_weather", "\x7b\"city\":1\x7d"⟩⟩]
    ⟨"call_1", ⟨"get_weather", "\x7b\"city\":1\x7d"⟩⟩
    (by simp) rfl (by simp) (by decide)
  refine ⟨info, h1, h2, h3, h4.trans (by decide), hmem, ?_⟩
  exact hparse String (fun s => s)

/-- C8 witness: the default branch evaluated at an unlisted finish reason,
and the per-choice application evaluated on a concrete two-choice
response. -/
theorem finish_reason_mapping_witness :
    (mapStopReason (some "weird") = none ∧ geminiFinishReason (some "weird") = "OTHER") ∧
    (∃ cand, (translateOpenAIToGemini
        ⟨"r1", "m1", [⟨0, ⟨some "hi", none⟩, some "stop"⟩,
                      ⟨1, ⟨none, none⟩, some "length"⟩], none⟩).candidates.get? 1
          = some cand ∧
      cand.finishReason = geminiFinishReason (some "length") ∧ cand.index = 1) := by
  constructor
  · exact finish_reason_mapping.2.2.2.2.1 (some "weird")
      (by decide) (by decide) (by decide) (by decide)
  · exact finish_reason_mapping.2.2.2.2.2
      ⟨"r1", "m1", [⟨0, ⟨some "hi", none⟩, some "stop"⟩,
                    ⟨1, ⟨none, none⟩, some "length"⟩], none⟩ 1 ⟨1, ⟨none, none⟩, some "length"⟩ rfl

end CopilotRouter
